import Mathlib

/-! GrDomHook and GrDomHooksManager.

A shallow embedding of
`polygerrit-ui/app/elements/plugins/gr-dom-hooks/gr-dom-hooks.js`.

* Element handles and promises are heap references, modelled as natural numbers
  and compared by identity, as `Array.prototype.indexOf` does.
* The only closures the file creates are the `resolve` function of the promise
  built in `getLastAttached` and the arrow function passed to `promise.then`;
  both are represented by the data they capture.
* Callbacks registered by plugins are opaque: invoking one is recorded in the
  `calls` trace of the world, and the call either returns normally or throws.
  Which of the two happens is an input of `handleInstanceAttached`, so every
  statement about that function covers every behaviour of the callbacks.
  Nothing catches the exception: it ends the `forEach` loop and the method.
  Plugin callbacks that call back into the hook synchronously are outside the
  model.
* `undefined` and `null` are both `none`.
* The functions `injectAppContext` and `getAppContext` of
  `polygerrit-ui/app/services/app-context.ts` are embedded as well; the
  `finalize` method of an injected context is opaque in the same way, and
  whether it returns or throws is an input of `injectAppContext`.
-/

namespace GrDomHooks

/-! ## Data model -/

/-- Handle of a DOM element attached at an endpoint. -/
abbrev Instance := Nat

/-- Reference to a promise object: its index in the promise heap. -/
abbrev PromiseId := Nat

/-- A function stored in `_callbacks`: either a plugin callback passed to
`onAttached` (opaque, named by an identifier) or the `resolve` function of the
promise `p` created by `new Promise(r => resolve = r)` in `getLastAttached`. -/
inductive Callback where
  | user (id : Nat)
  | resolve (p : PromiseId)
  deriving DecidableEq, Repr

/-- The arrow function `element => ...` given to `promise.then` in
`getLastAttached`. It captures the variable `resolve` (the resolver of promise
`resolve`); `derived` is the promise that `then` returned. -/
structure Reaction where
  resolve : PromiseId
  derived : PromiseId
  deriving DecidableEq, Repr

/-- State of a promise object. -/
inductive PromiseState where
  | pending (reactions : List Reaction)
  | fulfilled (value : Option Instance)
  deriving DecidableEq, Repr

/-- A promise reaction job waiting in the microtask queue. -/
structure Job where
  reaction : Reaction
  element : Option Instance
  deriving DecidableEq, Repr

/-- Fields of a `GrDomHook` object. `_lastAttachedPromise` is not set by the
constructor, so it starts out `undefined`. -/
structure GrDomHook where
  _instances : List Instance
  _callbacks : List Callback
  _moduleName : String
  _lastAttachedPromise : Option PromiseId
  deriving DecidableEq, Repr

/-- One hook together with the part of the JavaScript runtime it interacts
with: the promise heap, the microtask queue, and the trace of callback
invocations made so far. -/
structure World where
  hook : GrDomHook
  promises : List PromiseState
  microtasks : List Job
  calls : List (Callback × Instance)
  deriving DecidableEq, Repr

/-- How a call ends: it returns normally or it throws. -/
inductive Completion where
  | normal
  | throw
  deriving DecidableEq, Repr

/-- Methods on `GrDomHook.prototype`. -/
inductive Method where
  | _createPlaceholder
  | handleInstanceDetached
  | handleInstanceAttached
  | getLastAttached
  | getAllAttached
  | onAttached
  | getModuleName
  | getPublicAPI
  deriving DecidableEq, Repr

/-- JavaScript values that the hook methods hand to their caller. -/
inductive Value where
  | undefined
  | this
  | boundObject (members : List (String × Method))
  | promise (p : Option PromiseId)
  | array (xs : List Instance)
  | string (s : String)
  deriving DecidableEq, Repr

/-! ## Array and promise primitives -/

/-- Search of `Array.prototype.indexOf`, started at position `i`. -/
def indexOfFrom {α : Type} [DecidableEq α] (x : α) : List α → Nat → Int
  | [], _ => -1
  | y :: ys, i => if y = x then (i : Int) else indexOfFrom x ys (i + 1)

/-- `xs.indexOf(x)`: position of the first element identical to `x`, or `-1`. -/
def indexOf {α : Type} [DecidableEq α] (xs : List α) (x : α) : Int :=
  indexOfFrom x xs 0

/-- `xs.splice(index, 1)` for a non-negative `index`: the array afterwards. -/
def splice {α : Type} (xs : List α) (index : Int) : List α :=
  xs.eraseIdx index.toNat

/-- `xs.slice(-1)[0]`: the last element, `undefined` on the empty array. -/
def sliceLast {α : Type} (xs : List α) : Option α :=
  (xs.drop (xs.length - 1)).head?

/-- `new Promise(r => resolve = r)`: allocates a pending promise. -/
def newPromise (w : World) : PromiseId × World :=
  (w.promises.length, { w with promises := w.promises ++ [PromiseState.pending []] })

/-- `Promise.resolve(v)` for a non-thenable `v`: allocates a fulfilled promise. -/
def promiseResolve (w : World) (v : Option Instance) : PromiseId × World :=
  (w.promises.length, { w with promises := w.promises ++ [PromiseState.fulfilled v] })

/-- Fulfil promise `p` with `v`. Its reactions are queued as microtasks. A
promise that is already settled is left alone. -/
def fulfil (w : World) (p : PromiseId) (v : Option Instance) : World :=
  match w.promises[p]? with
  | some (PromiseState.pending reactions) =>
    { w with
      promises := w.promises.set p (PromiseState.fulfilled v)
      microtasks := w.microtasks ++ reactions.map (fun r => Job.mk r v) }
  | _ => w

/-- `promise.then(reaction)`: allocates the derived promise and registers the
reaction, or queues it at once when `promise` is already fulfilled. -/
def promiseThen (w : World) (promise : PromiseId) (resolve : PromiseId) :
    PromiseId × World :=
  let derived := w.promises.length
  let w1 := { w with promises := w.promises ++ [PromiseState.pending []] }
  match w1.promises[promise]? with
  | some (PromiseState.pending rs) =>
    (derived,
      { w1 with
        promises := w1.promises.set promise (PromiseState.pending (rs ++ [Reaction.mk resolve derived])) })
  | some (PromiseState.fulfilled v) =>
    (derived, { w1 with microtasks := w1.microtasks ++ [Job.mk (Reaction.mk resolve derived) v] })
  | none => (derived, w1)

/-- Call of a function stored in `_callbacks` with argument `x`. The call of a
plugin callback is recorded and ends as `outcome` says; a resolver fulfils its
promise and always returns normally. -/
def invoke (cb : Callback) (x : Instance) (outcome : Completion) (w : World) :
    Completion × World :=
  let w1 := { w with calls := w.calls ++ [(cb, x)] }
  match cb with
  | Callback.user _ => (outcome, w1)
  | Callback.resolve p => (Completion.normal, fulfil w1 p (some x))

/-- `this._callbacks.forEach(callback => callback(x))`: `n` further indices
starting at `k` are visited; the array is read at the time of each visit. The
call of the observer at position `i` ends as `outcomes[i]` says, normally when
the list is shorter. A call that throws ends the loop: the exception is not
caught and the remaining observers are not called. -/
def forEachCallback (x : Instance) (outcomes : List Completion) :
    Nat → Nat → World → Completion × World
  | 0, _, w => (Completion.normal, w)
  | n + 1, k, w =>
    match w.hook._callbacks[k]? with
    | some cb =>
      match invoke cb x ((outcomes[k]?).getD Completion.normal) w with
      | (Completion.normal, w1) => forEachCallback x outcomes n (k + 1) w1
      | (Completion.throw, w1) => (Completion.throw, w1)
    | none => forEachCallback x outcomes n (k + 1) w

/-! ## GrDomHook -/

/-- Truthiness test `if (opt_moduleName)` on an optional string argument: the
argument passes when it is present and not the empty string. -/
def truthy? : Option String → Option String
  | some m => if m = "" then none else some m
  | none => none

/-- `GrDomHook.prototype._createPlaceholder`: registers with Polymer an element
type called `hookName` with the properties `plugin` and `content`. The Polymer
registry is represented by the list of registered element names. -/
def _createPlaceholder (polymer : List String) (hookName : String) : List String :=
  polymer ++ [hookName]

/-- `new GrDomHook(hookName, opt_moduleName)`: the fields of the new object and
the Polymer registry afterwards. -/
def GrDomHook.new (polymer : List String) (hookName : String)
    (opt_moduleName : Option String) : GrDomHook × List String :=
  match truthy? opt_moduleName with
  | some m =>
    ({ _instances := [], _callbacks := [], _moduleName := m, _lastAttachedPromise := none },
      polymer)
  | none =>
    ({ _instances := [], _callbacks := [], _moduleName := hookName,
       _lastAttachedPromise := none },
      _createPlaceholder polymer hookName)

/-- World holding a freshly constructed hook. -/
def World.fresh (hookName : String) (opt_moduleName : Option String) : World :=
  { hook := (GrDomHook.new [] hookName opt_moduleName).1
    promises := []
    microtasks := []
    calls := [] }

/-- `GrDomHook.prototype.handleInstanceDetached`. -/
def handleInstanceDetached (w : World) (inst : Instance) : World :=
  let index := indexOf w.hook._instances inst
  if index ≠ -1 then
    { w with hook := { w.hook with _instances := splice w.hook._instances index } }
  else
    w

/-- `GrDomHook.prototype.handleInstanceAttached`: how the call ends and the
world afterwards. `outcomes` says how the call of the observer at each position
of `_callbacks` ends during this call. -/
def handleInstanceAttached (w : World) (inst : Instance) (outcomes : List Completion) :
    Completion × World :=
  let w1 := { w with hook := { w.hook with _instances := w.hook._instances ++ [inst] } }
  forEachCallback inst outcomes w1.hook._callbacks.length 0 w1

/-- `GrDomHook.prototype.getLastAttached`: the returned promise and the world
afterwards. -/
def getLastAttached (w : World) : Option PromiseId × World :=
  if w.hook._instances.length ≠ 0 then
    let r := promiseResolve w (sliceLast w.hook._instances)
    (some r.1, r.2)
  else
    match w.hook._lastAttachedPromise with
    | none =>
      let r1 := newPromise w
      let resolve := r1.1
      let w2 := { r1.2 with
        hook := { r1.2.hook with _callbacks := r1.2.hook._callbacks ++ [Callback.resolve resolve] } }
      let r3 := promiseThen w2 r1.1 resolve
      let w4 := { r3.2 with hook := { r3.2.hook with _lastAttachedPromise := some r3.1 } }
      (w4.hook._lastAttachedPromise, w4)
    | some q => (some q, w)

/-- Body of the arrow function passed to `promise.then` in `getLastAttached`,
run as a microtask with the value `element`; its return value fulfils the
derived promise. -/
def runReaction (w : World) (j : Job) : World :=
  let h1 := { w.hook with _lastAttachedPromise := none }
  let index := indexOf h1._callbacks (Callback.resolve j.reaction.resolve)
  let h2 := if index ≠ -1 then { h1 with _callbacks := splice h1._callbacks index } else h1
  fulfil { w with hook := h2 } j.reaction.derived j.element

/-- The event loop runs the oldest queued microtask, if there is one. -/
def runMicrotask (w : World) : World :=
  match w.microtasks with
  | [] => w
  | j :: rest => runReaction { w with microtasks := rest } j

/-- `GrDomHook.prototype.getAllAttached`. -/
def getAllAttached (w : World) : List Instance :=
  w.hook._instances

/-- `GrDomHook.prototype.onAttached`: returns `this`. -/
def onAttached (w : World) (callback : Callback) : Value × World :=
  (Value.this,
    { w with hook := { w.hook with _callbacks := w.hook._callbacks ++ [callback] } })

/-- `GrDomHook.prototype.getModuleName`. -/
def getModuleName (h : GrDomHook) : String :=
  h._moduleName

/-- Members of `GrDomHook.prototype`, by property name. -/
def GrDomHook.prototype : List (String × Method) :=
  [("_createPlaceholder", Method._createPlaceholder),
   ("handleInstanceDetached", Method.handleInstanceDetached),
   ("handleInstanceAttached", Method.handleInstanceAttached),
   ("getLastAttached", Method.getLastAttached),
   ("getAllAttached", Method.getAllAttached),
   ("onAttached", Method.onAttached),
   ("getModuleName", Method.getModuleName),
   ("getPublicAPI", Method.getPublicAPI)]

/-- The constant `exposedMethods` of `getPublicAPI`. -/
def exposedMethods : List String :=
  ["onAttached", "getLastAttached", "getAllAttached", "getModuleName"]

/-- `GrDomHook.prototype.getPublicAPI`: a new object with, for every name `p`
in `exposedMethods`, the member `this[p].bind(this)`. -/
def getPublicAPI : Value :=
  Value.boundObject
    (exposedMethods.filterMap
      (fun p => (GrDomHook.prototype.lookup p).map (fun m => (p, m))))

/-- Names of the hook methods that can be called on a value: the prototype
methods on the hook object itself, the own members on the object built by
`getPublicAPI`, none on promises, arrays and strings. -/
def Value.methods : Value → List String
  | Value.this => GrDomHook.prototype.map Prod.fst
  | Value.boundObject members => members.map Prod.fst
  | _ => []

/-- Call of a method bound to the hook, as plugin code makes it through the
public API object: `callback` is the argument of `onAttached`. The two runtime
methods take an element instead and are not covered. -/
def callBound (m : Method) (w : World) (callback : Callback) : Option (Value × World) :=
  match m with
  | Method.onAttached => some (onAttached w callback)
  | Method.getLastAttached =>
    some (Value.promise (getLastAttached w).1, (getLastAttached w).2)
  | Method.getAllAttached => some (Value.array (getAllAttached w), w)
  | Method.getModuleName => some (Value.string (getModuleName w.hook), w)
  | _ => none

/-- Call `v.name(callback)` on a value handed to plugin code. -/
def callMember (v : Value) (name : String) (w : World) (callback : Callback) :
    Option (Value × World) :=
  match v with
  | Value.boundObject members =>
    match members.lookup name with
    | some m => callBound m w callback
    | none => none
  | _ => none

/-! ## GrDomHooksManager -/

/-- Fields of a `GrDomHooksManager`. The plugin object is represented by the
string that `getPluginName()` returns; `_hooks` lists the own properties of the
`_hooks` object, each value being a reference into the heap of hooks. -/
structure GrDomHooksManager where
  _plugin : String
  _hooks : List (String × Nat)
  deriving DecidableEq, Repr

/-- A manager together with the global state its methods touch: the heap of
`GrDomHook` objects (a reference is an index) and the Polymer registry. -/
structure Registry where
  manager : GrDomHooksManager
  heap : List GrDomHook
  polymer : List String
  deriving DecidableEq, Repr

/-- `new GrDomHooksManager(plugin)` on an empty page. -/
def Registry.new (pluginName : String) : Registry :=
  { manager := { _plugin := pluginName, _hooks := [] }, heap := [], polymer := [] }

/-- Property read `obj[key]`: `undefined` when there is no such property. -/
def getProp (key : String) : List (String × Nat) → Option Nat
  | [] => none
  | (k, v) :: rest => if k = key then some v else getProp key rest

/-- Property write `obj[key] = value`: replaces the property or adds it. -/
def setProp (key : String) (value : Nat) : List (String × Nat) → List (String × Nat)
  | [] => [(key, value)]
  | (k, v) :: rest =>
    if k = key then (key, value) :: rest else (k, v) :: setProp key value rest

/-- `GrDomHooksManager.prototype._getHookName`. -/
def _getHookName (this : GrDomHooksManager) (endpointName : String)
    (opt_moduleName : Option String) : String :=
  match truthy? opt_moduleName with
  | some m => endpointName ++ " " ++ m
  | none => this._plugin ++ "-autogenerated-" ++ endpointName

/-- `GrDomHooksManager.prototype.getDomHook`: the returned reference and the
state afterwards. A stored hook reference is an object, hence truthy, so the
test `!this._hooks[hookName]` succeeds exactly when the property is missing. -/
def getDomHook (s : Registry) (endpointName : String) (opt_moduleName : Option String) :
    Option Nat × Registry :=
  let hookName := _getHookName s.manager endpointName opt_moduleName
  let s1 :=
    match getProp hookName s.manager._hooks with
    | none =>
      let r := GrDomHook.new s.polymer hookName opt_moduleName
      { manager := { s.manager with _hooks := setProp hookName s.heap.length s.manager._hooks }
        heap := s.heap ++ [r.1]
        polymer := r.2 }
    | some _ => s
  (getProp hookName s1.manager._hooks, s1)

/-- A sequence of `getDomHook` calls, oldest first, given by their arguments. -/
def runCalls (s : Registry) (calls : List (String × Option String)) : Registry :=
  calls.foldl (fun s c => (getDomHook s c.1 c.2).2) s

/-- `getModuleName()` of the hook that a `getDomHook` call returned. -/
def moduleNameOf (res : Option Nat × Registry) : Option String :=
  match res.1 with
  | some r => (res.2.heap[r]?).map getModuleName
  | none => none

/-- The space character. -/
def space : Char := Char.ofNat 32

/-- Every property of `_hooks` refers to a hook on the heap whose module name
is the one its constructor derives from some argument pair with a space-free
endpoint name that yields the property name. -/
def HooksNamed (s : Registry) : Prop :=
  ∀ key r, getProp key s.manager._hooks = some r →
    ∃ h e m, s.heap[r]? = some h ∧ space ∉ e.data ∧ key = _getHookName s.manager e m ∧
      h._moduleName = (GrDomHook.new [] key m).1._moduleName

/-- References stored in `_hooks` point into the heap of hooks, and no two
properties hold the same reference. -/
def RefsDistinct (s : Registry) : Prop :=
  (∀ key r, getProp key s.manager._hooks = some r → r < s.heap.length) ∧
    (∀ k1 k2 r, getProp k1 s.manager._hooks = some r →
      getProp k2 s.manager._hooks = some r → k1 = k2)

/-- Every property name of `_hooks` is the hook name of one of the listed
`getDomHook` calls. -/
def KeysOf (s : Registry) (calls : List (String × Option String)) : Prop :=
  ∀ key r, getProp key s.manager._hooks = some r →
    ∃ c ∈ calls, key = _getHookName s.manager c.1 c.2

/-! ## Sequences of operations on one hook -/

/-- An event in the life of a hook: a call of one of its methods by the
attachment runtime or by plugin code, or a turn of the microtask queue. Plugin
code registers plugin callbacks only. -/
inductive Op where
  | handleInstanceAttached (x : Instance) (outcomes : List Completion)
  | handleInstanceDetached (x : Instance)
  | onAttached (id : Nat)
  | getLastAttached
  | microtask
  deriving DecidableEq, Repr

/-- Effect of one event on the world. -/
def step (w : World) : Op → World
  | Op.handleInstanceAttached x outcomes => (handleInstanceAttached w x outcomes).2
  | Op.handleInstanceDetached x => handleInstanceDetached w x
  | Op.onAttached id => (onAttached w (Callback.user id)).2
  | Op.getLastAttached => (getLastAttached w).2
  | Op.microtask => runMicrotask w

/-- Effect of a sequence of events, oldest first. -/
def run (w : World) (ops : List Op) : World :=
  ops.foldl step w

/-- Whether the event is an attachment. -/
def Op.isAttach : Op → Bool
  | Op.handleInstanceAttached _ _ => true
  | _ => false

/-- Whether the event is a turn of the microtask queue. -/
def Op.isMicrotask : Op → Bool
  | Op.microtask => true
  | _ => false

/-- Callbacks that the event appends to the observer list on behalf of plugin
code. -/
def Op.registered : Op → List Callback
  | Op.onAttached id => [Callback.user id]
  | _ => []

/-- Whether every attachment in the sequence concerns an element that is not in
the instance list at that moment. -/
def attachesFresh : World → List Op → Bool
  | _, [] => true
  | w, op :: ops =>
    (match op with
      | Op.handleInstanceAttached x _ => !(w.hook._instances.contains x)
      | _ => true) && attachesFresh (step w op) ops

/-- Whether every `handleInstanceAttached` call in the sequence returns
normally, that is, no observer throws during it. -/
def attachesComplete : World → List Op → Bool
  | _, [] => true
  | w, op :: ops =>
    (match op with
      | Op.handleInstanceAttached x outcomes =>
        decide ((handleInstanceAttached w x outcomes).1 = Completion.normal)
      | _ => true) && attachesComplete (step w op) ops

/-! ## Phases of the coalesced wait -/

/-- Promises whose `resolve` function is in the observer list, in list order. -/
def resolvers (cbs : List Callback) : List PromiseId :=
  cbs.filterMap (fun c =>
    match c with
    | Callback.resolve p => some p
    | Callback.user _ => none)

/-- Plugin callbacks in the observer list, in list order. -/
def durable (cbs : List Callback) : List Nat :=
  cbs.filterMap (fun c =>
    match c with
    | Callback.user id => some id
    | Callback.resolve _ => none)

/-- The promise heap and the microtask queue of a world. -/
def World.pm (w : World) : List PromiseState × List Job :=
  (w.promises, w.microtasks)

/-- Effect of `fulfil` on the promise heap and the microtask queue. -/
def fulfilPM (s : List PromiseState × List Job) (p : PromiseId) (v : Option Instance) :
    List PromiseState × List Job :=
  match s.1[p]? with
  | some (PromiseState.pending reactions) =>
    (s.1.set p (PromiseState.fulfilled v), s.2 ++ reactions.map (fun r => Job.mk r v))
  | _ => s

/-- No wait exists: the pending-wait field is absent, no resolver is in the
observer list and no promise callback is queued. -/
def Idle (w : World) : Prop :=
  w.hook._lastAttachedPromise = none ∧ resolvers w.hook._callbacks = [] ∧ w.microtasks = []

/-- A wait is in flight and its resolver has not been called since it was
created: `q` is the stored promise and `p` the promise whose resolver is in the
observer list. -/
def Waiting (w : World) (p q : PromiseId) : Prop :=
  w.hook._lastAttachedPromise = some q ∧ resolvers w.hook._callbacks = [p] ∧ q = p + 1 ∧
    w.promises[q]? = some (PromiseState.pending []) ∧
    w.promises[p]? = some (PromiseState.pending [Reaction.mk p q]) ∧
    w.microtasks = []

/-- The wait has been satisfied by the attachment of `x` and its resolution
callback is queued but has not run yet. -/
def Fired (w : World) (p q : PromiseId) (x : Instance) : Prop :=
  w.hook._lastAttachedPromise = some q ∧ resolvers w.hook._callbacks = [p] ∧ q = p + 1 ∧
    w.promises[q]? = some (PromiseState.pending []) ∧
    w.promises[p]? = some (PromiseState.fulfilled (some x)) ∧
    w.microtasks = [Job.mk (Reaction.mk p q) (some x)]

/-- The three phases a hook can be in. -/
def Coherent (w : World) : Prop :=
  Idle w ∨ (∃ p q, Waiting w p q) ∨ (∃ p q x, Fired w p q x)

/-- As long as a wait is in flight and its callback is not queued, nothing is
attached. -/
def WaitsEmpty (w : World) : Prop :=
  w.hook._lastAttachedPromise ≠ none → w.microtasks = [] → w.hook._instances = []

/-! ## AppContext (`polygerrit-ui/app/services/app-context.ts`) -/

/-- Reference to an `AppContext & Finalizable` object. -/
abbrev Context := Nat

/-- The module-level variable `appContext` (`undefined` is `none`) together
with the trace of `finalize()` calls made so far. `finalize` belongs to the
injected objects and is opaque: a call is recorded with its receiver and with
the value that `appContext` holds while it runs. -/
structure AppState where
  appContext : Option Context
  finalizeCalls : List (Context × Option Context)
  deriving DecidableEq, Repr

/-- State when the module has just been loaded: `let appContext = undefined`. -/
def AppState.initial : AppState :=
  { appContext := none, finalizeCalls := [] }

/-- `injectAppContext(ctx)`: `appContext?.finalize(); appContext = ctx;`. When
a `finalize` call is made it ends as `outcome` says; if it throws, the
exception is not caught and the assignment is not reached. The result is how
the call of `injectAppContext` ends and the state afterwards. -/
def injectAppContext (s : AppState) (ctx : Context) (outcome : Completion) :
    Completion × AppState :=
  match s.appContext with
  | some old =>
    let s1 := { s with finalizeCalls := s.finalizeCalls ++ [(old, s.appContext)] }
    match outcome with
    | Completion.normal => (Completion.normal, { s1 with appContext := some ctx })
    | Completion.throw => (Completion.throw, s1)
  | none => (Completion.normal, { s with appContext := some ctx })

/-- `getAppContext()`: the outcome (a thrown error carries its message) and the
state afterwards. An object reference is truthy, so `!appContext` holds exactly
for `undefined`. -/
def getAppContext (s : AppState) : Except String Context × AppState :=
  match s.appContext with
  | none => (Except.error "App context has not been injected", s)
  | some ctx => (Except.ok ctx, s)

/-- A sequence of `injectAppContext` calls, oldest first, each given by its
argument and by how a `finalize` call made during it ends. -/
def injectAll (s : AppState) (calls : List (Context × Completion)) : AppState :=
  calls.foldl (fun s c => (injectAppContext s c.1 c.2).2) s

/-- The arguments of the calls in the sequence that returned normally, oldest
first. -/
def injected : AppState → List (Context × Completion) → List Context
  | _, [] => []
  | s, c :: cs =>
    (match (injectAppContext s c.1 c.2).1 with
      | Completion.normal => [c.1]
      | Completion.throw => []) ++ injected (injectAppContext s c.1 c.2).2 cs

/-! ## Basic facts -/

theorem indexOfFrom_of_not_mem {α : Type} [DecidableEq α] (x : α) (xs : List α) (i : Nat)
    (h : x ∉ xs) : indexOfFrom x xs i = -1 := by
  induction xs generalizing i with
  | nil => rfl
  | cons y ys ih =>
    have hy : y ≠ x := fun e => h (by simp [e])
    have hys : x ∉ ys := fun m => h (List.mem_cons_of_mem _ m)
    simp [indexOfFrom, hy, ih _ hys]

theorem indexOfFrom_of_mem {α : Type} [DecidableEq α] (x : α) (xs : List α) (i : Nat)
    (h : x ∈ xs) :
    ∃ l1 l2, xs = l1 ++ x :: l2 ∧ x ∉ l1 ∧ indexOfFrom x xs i = ((i + l1.length : Nat) : Int) := by
  induction xs generalizing i with
  | nil => simp at h
  | cons y ys ih =>
    by_cases hy : y = x
    · subst hy
      exact ⟨[], ys, rfl, by simp, by simp [indexOfFrom]⟩
    · have hys : x ∈ ys := by
        rcases List.mem_cons.mp h with e | m
        · exact absurd e.symm hy
        · exact m
      obtain ⟨l1, l2, e, hn, hi⟩ := ih (i + 1) hys
      refine ⟨y :: l1, l2, by simp [e], ?_, ?_⟩
      · simp only [List.mem_cons, not_or]
        exact ⟨fun e => hy e.symm, hn⟩
      · simp only [indexOfFrom, hy, if_false, hi, List.length_cons]
        congr 1
        omega

theorem indexOf_eq_neg_one_iff {α : Type} [DecidableEq α] (xs : List α) (x : α) :
    indexOf xs x = -1 ↔ x ∉ xs := by
  constructor
  · intro h m
    obtain ⟨l1, l2, _, _, hi⟩ := indexOfFrom_of_mem x xs 0 m
    unfold indexOf at h
    rw [hi] at h
    omega
  · exact indexOfFrom_of_not_mem x xs 0

/-- Removing the element found by `indexOf` with `splice` removes the first
occurrence and nothing else. -/
theorem splice_indexOf {α : Type} [DecidableEq α] (xs : List α) (x : α) (h : x ∈ xs) :
    ∃ l1 l2, xs = l1 ++ x :: l2 ∧ x ∉ l1 ∧ splice xs (indexOf xs x) = l1 ++ l2 := by
  obtain ⟨l1, l2, e, hn, hi⟩ := indexOfFrom_of_mem x xs 0 h
  refine ⟨l1, l2, e, hn, ?_⟩
  unfold indexOf splice
  rw [hi, e]
  simp [List.eraseIdx_append_of_length_le]

theorem fulfil_hook (w : World) (p : PromiseId) (v : Option Instance) :
    (fulfil w p v).hook = w.hook := by
  unfold fulfil
  split <;> rfl

theorem fulfil_calls (w : World) (p : PromiseId) (v : Option Instance) :
    (fulfil w p v).calls = w.calls := by
  unfold fulfil
  split <;> rfl

theorem invoke_hook (cb : Callback) (x : Instance) (outcome : Completion) (w : World) :
    (invoke cb x outcome w).2.hook = w.hook := by
  cases cb with
  | user id => rfl
  | resolve p => simp [invoke, fulfil_hook]

theorem invoke_calls (cb : Callback) (x : Instance) (outcome : Completion) (w : World) :
    (invoke cb x outcome w).2.calls = w.calls ++ [(cb, x)] := by
  cases cb with
  | user id => rfl
  | resolve p => simp [invoke, fulfil_calls]

/-- One round of the `forEach` loop, by how the call of the observer ends. -/
theorem forEachCallback_succ (x : Instance) (outcomes : List Completion) (n k : Nat)
    (w : World) (cb : Callback) (h : w.hook._callbacks[k]? = some cb) :
    ((invoke cb x ((outcomes[k]?).getD Completion.normal) w).1 = Completion.normal ∧
        forEachCallback x outcomes (n + 1) k w =
          forEachCallback x outcomes n (k + 1)
            (invoke cb x ((outcomes[k]?).getD Completion.normal) w).2) ∨
      ((invoke cb x ((outcomes[k]?).getD Completion.normal) w).1 = Completion.throw ∧
        forEachCallback x outcomes (n + 1) k w =
          (Completion.throw, (invoke cb x ((outcomes[k]?).getD Completion.normal) w).2)) := by
  rw [forEachCallback, h]
  simp only
  rcases hi : invoke cb x ((outcomes[k]?).getD Completion.normal) w with ⟨c, w1⟩
  cases c with
  | normal => exact Or.inl ⟨rfl, rfl⟩
  | throw => exact Or.inr ⟨rfl, rfl⟩

theorem forEachCallback_none (x : Instance) (outcomes : List Completion) (n k : Nat)
    (w : World) (h : w.hook._callbacks[k]? = none) :
    forEachCallback x outcomes (n + 1) k w = forEachCallback x outcomes n (k + 1) w := by
  rw [forEachCallback, h]

/-- The `forEach` loop leaves the hook fields alone, however it ends. -/
theorem forEachCallback_hook (x : Instance) (outcomes : List Completion) (n k : Nat)
    (w : World) : (forEachCallback x outcomes n k w).2.hook = w.hook := by
  induction n generalizing k w with
  | zero => rfl
  | succ n ih =>
    cases hk : w.hook._callbacks[k]? with
    | none => rw [forEachCallback_none x outcomes n k w hk, ih]
    | some cb =>
      rcases forEachCallback_succ x outcomes n k w cb hk with ⟨_, h⟩ | ⟨_, h⟩
      · rw [h, ih, invoke_hook]
      · rw [h, invoke_hook]

theorem handleInstanceAttached_hook (w : World) (x : Instance) (outcomes : List Completion) :
    (handleInstanceAttached w x outcomes).2.hook =
      { w.hook with _instances := w.hook._instances ++ [x] } := by
  unfold handleInstanceAttached
  exact forEachCallback_hook x outcomes _ 0 _

theorem sliceLast_eq_getLast {α : Type} (xs : List α) (h : xs ≠ []) :
    sliceLast xs = some (xs.getLast h) := by
  unfold sliceLast
  obtain ⟨ys, y, rfl⟩ : ∃ ys y, xs = ys ++ [y] :=
    ⟨xs.dropLast, xs.getLast h, (List.dropLast_append_getLast h).symm⟩
  simp

theorem getLastAttached_first (w : World) (hi : w.hook._instances = [])
    (hp : w.hook._lastAttachedPromise = none) :
    getLastAttached w =
      (some (w.promises.length + 1),
        { w with
          hook := { w.hook with
            _callbacks := w.hook._callbacks ++ [Callback.resolve w.promises.length]
            _lastAttachedPromise := some (w.promises.length + 1) }
          promises := w.promises ++
            [PromiseState.pending [Reaction.mk w.promises.length (w.promises.length + 1)],
             PromiseState.pending []] }) := by
  have hget : (w.promises ++ [PromiseState.pending []] ++ [PromiseState.pending []])[w.promises.length]?
      = some (PromiseState.pending []) := by
    rw [List.append_assoc, List.getElem?_append_right (le_refl _)]
    simp
  have hset : (w.promises ++ [PromiseState.pending []] ++ [PromiseState.pending []]).set
      w.promises.length
        (PromiseState.pending [Reaction.mk w.promises.length (w.promises.length + 1)]) =
      w.promises ++
        [PromiseState.pending [Reaction.mk w.promises.length (w.promises.length + 1)],
         PromiseState.pending []] := by
    rw [List.append_assoc, List.set_append_right _ _ (le_refl _)]
    simp
  simp only [getLastAttached, hi, hp, newPromise, promiseThen, List.length_nil, ne_eq,
    not_true_eq_false, if_false, hget, List.length_append, List.length_singleton, List.nil_append,
    hset]

theorem getLastAttached_waiting (w : World) (q : PromiseId) (hi : w.hook._instances = [])
    (hp : w.hook._lastAttachedPromise = some q) :
    getLastAttached w = (some q, w) := by
  simp [getLastAttached, hi, hp]

theorem handleInstanceDetached_of_not_mem (w : World) (x : Instance)
    (h : x ∉ w.hook._instances) : handleInstanceDetached w x = w := by
  unfold handleInstanceDetached
  simp [(indexOf_eq_neg_one_iff w.hook._instances x).mpr h]

/-- While a wait is in flight and nothing is attached, an event other than an
attachment keeps it so; only `onAttached` changes the observer list. -/
theorem step_waiting (w : World) (q : PromiseId) (op : Op)
    (hi : w.hook._instances = []) (hp : w.hook._lastAttachedPromise = some q)
    (ha : op.isAttach = false) (hm : w.microtasks = [] ∨ op.isMicrotask = false) :
    (step w op).hook._instances = [] ∧
      (step w op).hook._lastAttachedPromise = some q ∧
      (step w op).microtasks = w.microtasks ∧
      (step w op).hook._callbacks = w.hook._callbacks ++ op.registered := by
  cases op with
  | handleInstanceAttached x => simp [Op.isAttach] at ha
  | handleInstanceDetached x =>
    have : handleInstanceDetached w x = w :=
      handleInstanceDetached_of_not_mem w x (by simp [hi])
    simp [step, this, hi, hp, Op.registered]
  | onAttached id => simp [step, onAttached, hi, hp, Op.registered]
  | getLastAttached =>
    simp [step, getLastAttached_waiting w q hi hp, hi, hp, Op.registered]
  | microtask =>
    rcases hm with hm | hm
    · simp [step, runMicrotask, hm, hi, hp, Op.registered]
    · simp [Op.isMicrotask] at hm

theorem run_waiting (ops : List Op) (w : World) (q : PromiseId)
    (hi : w.hook._instances = []) (hp : w.hook._lastAttachedPromise = some q)
    (ha : ∀ op ∈ ops, op.isAttach = false)
    (hm : w.microtasks = [] ∨ ∀ op ∈ ops, op.isMicrotask = false) :
    (run w ops).hook._instances = [] ∧
      (run w ops).hook._lastAttachedPromise = some q ∧
      (run w ops).hook._callbacks = w.hook._callbacks ++ ops.flatMap Op.registered := by
  induction ops generalizing w with
  | nil => simp [run, hi, hp]
  | cons op ops ih =>
    have hs := step_waiting w q op hi hp (ha op (by simp))
      (hm.imp id (fun h => h op (by simp)))
    obtain ⟨h1, h2, h3⟩ := ih (step w op) hs.1 hs.2.1
      (fun o ho => ha o (List.mem_cons_of_mem _ ho))
      (hm.imp (fun h => by rw [hs.2.2.1]; exact h)
        (fun h o ho => h o (List.mem_cons_of_mem _ ho)))
    refine ⟨h1, h2, ?_⟩
    have : run w (op :: ops) = run (step w op) ops := rfl
    rw [this, h3, hs.2.2.2]
    simp

theorem handleInstanceDetached_spec_aux (w : World) (x : Instance) :
    (handleInstanceDetached w x).hook._instances = w.hook._instances.erase x := by
  by_cases hx : x ∈ w.hook._instances
  · obtain ⟨l1, l2, e, hn, hs⟩ := splice_indexOf w.hook._instances x hx
    have hne : indexOf w.hook._instances x ≠ -1 := fun h =>
      (indexOf_eq_neg_one_iff _ _).mp h hx
    unfold handleInstanceDetached
    simp only [hne, ne_eq, not_false_eq_true, if_true, hs]
    rw [e]
    simp [List.erase_append_right _ hn]
  · rw [handleInstanceDetached_of_not_mem w x hx, List.erase_of_not_mem hx]

theorem getLastAttached_hook_instances (w : World) :
    (getLastAttached w).2.hook._instances = w.hook._instances := by
  by_cases hi : w.hook._instances = []
  · cases hp : w.hook._lastAttachedPromise with
    | none => rw [getLastAttached_first w hi hp]
    | some q => rw [getLastAttached_waiting w q hi hp]
  · have hlen : w.hook._instances.length ≠ 0 := fun e => hi (List.length_eq_zero.mp e)
    simp [getLastAttached, hlen, promiseResolve]

theorem runMicrotask_hook_instances (w : World) :
    (runMicrotask w).hook._instances = w.hook._instances := by
  unfold runMicrotask
  cases w.microtasks with
  | nil => rfl
  | cons j rest =>
    simp only [runReaction, fulfil_hook]
    split <;> rfl

theorem filter_map_pair_of_not_mem (cb : Callback) (x : Instance) (cbs : List Callback)
    (h : cb ∉ cbs) :
    (cbs.map (fun c => (c, x))).filter (fun c => decide (c.1 = cb)) = [] := by
  induction cbs with
  | nil => rfl
  | cons c cs ih =>
    have hc : c ≠ cb := fun e => h (by simp [e])
    have hcs : cb ∉ cs := fun m => h (List.mem_cons_of_mem _ m)
    simp [hc, ih hcs]

/-- An attachment of an element that is not attached, and every other event,
keeps the instance list free of duplicates. -/
theorem step_nodup (w : World) (op : Op) (hn : w.hook._instances.Nodup)
    (hf : attachesFresh w [op] = true) : (step w op).hook._instances.Nodup := by
  cases op with
  | handleInstanceAttached x =>
    have hx : x ∉ w.hook._instances := by
      simpa [attachesFresh] using hf
    simp only [step, handleInstanceAttached_hook]
    exact List.Nodup.append hn (List.nodup_singleton x) (by simpa using hx)
  | handleInstanceDetached x =>
    simp only [step]
    rw [(handleInstanceDetached_spec_aux w x)]
    exact hn.erase x
  | onAttached id => simpa [step, onAttached] using hn
  | getLastAttached =>
    simp only [step, getLastAttached_hook_instances]
    exact hn
  | microtask =>
    simp only [step, runMicrotask_hook_instances]
    exact hn

/-! ## Claims about a single hook -/

/-- C2: when the instance list is non-empty, `getLastAttached` returns a new
promise that is already fulfilled with the last element of the instance list;
no promise that existed before is touched, and the hook fields (instance list,
observer list, pending wait), the microtask queue and the trace of callback
invocations are all unchanged. -/
theorem getLastAttached_of_attached (w : World) (h : w.hook._instances ≠ []) :
    (getLastAttached w).1 = some w.promises.length ∧
      (getLastAttached w).2.promises =
        w.promises ++ [PromiseState.fulfilled (some (w.hook._instances.getLast h))] ∧
      (getLastAttached w).2.promises[w.promises.length]? =
        some (PromiseState.fulfilled (some (w.hook._instances.getLast h))) ∧
      (getLastAttached w).2.hook = w.hook ∧
      (getLastAttached w).2.hook._callbacks = w.hook._callbacks ∧
      (getLastAttached w).2.hook._instances = w.hook._instances ∧
      (getLastAttached w).2.hook._lastAttachedPromise = w.hook._lastAttachedPromise ∧
      (getLastAttached w).2.microtasks = w.microtasks ∧
      (getLastAttached w).2.calls = w.calls := by
  have hlen : w.hook._instances.length ≠ 0 := by
    intro e
    exact h (List.length_eq_zero.mp e)
  have hs := sliceLast_eq_getLast w.hook._instances h
  simp [getLastAttached, hlen, promiseResolve, hs]

theorem getLastAttached_of_attached_witness :
    (getLastAttached
        { hook := { _instances := [4, 7], _callbacks := [Callback.user 0],
                    _moduleName := "m", _lastAttachedPromise := none },
          promises := [], microtasks := [], calls := [] }).2.promises
      = [PromiseState.fulfilled (some 7)] :=
  (getLastAttached_of_attached
    { hook := { _instances := [4, 7], _callbacks := [Callback.user 0],
                _moduleName := "m", _lastAttachedPromise := none },
      promises := [], microtasks := [], calls := [] } (by decide)).2.1

/-- C3: on a hook with nothing attached and no wait in flight, the first
`getLastAttached` call creates a promise pair, appends exactly one resolver to
the observer list and stores the returned promise as the pending wait. Every
further `getLastAttached` call made before an attachment (with `onAttached`
and `handleInstanceDetached` calls in between, and turns of the microtask
queue when it was empty to begin with) returns that same promise and changes
nothing at all, so the observer list holds exactly the one resolver next to
the plugin callbacks; `n` callers in a row leave the world as the first call
left it. -/
theorem getLastAttached_coalesces (w : World) (hi : w.hook._instances = [])
    (hp : w.hook._lastAttachedPromise = none) :
    (getLastAttached w).1 = some (w.promises.length + 1) ∧
      (getLastAttached w).2.hook._callbacks =
        w.hook._callbacks ++ [Callback.resolve w.promises.length] ∧
      (getLastAttached w).2.hook._lastAttachedPromise = (getLastAttached w).1 ∧
      (getLastAttached w).2.hook._instances = [] ∧
      (∀ n : Nat,
        run (getLastAttached w).2 (List.replicate n Op.getLastAttached) = (getLastAttached w).2) ∧
      (∀ ops : List Op, (∀ op ∈ ops, op.isAttach = false) →
        (w.microtasks = [] ∨ ∀ op ∈ ops, op.isMicrotask = false) →
        getLastAttached (run (getLastAttached w).2 ops) =
            ((getLastAttached w).1, run (getLastAttached w).2 ops) ∧
          (run (getLastAttached w).2 ops).hook._callbacks =
            w.hook._callbacks ++ [Callback.resolve w.promises.length] ++
              ops.flatMap Op.registered) := by
  have hf := getLastAttached_first w hi hp
  have hi1 : (getLastAttached w).2.hook._instances = [] := by rw [hf]; exact hi
  have hp1 : (getLastAttached w).2.hook._lastAttachedPromise = some (w.promises.length + 1) := by
    rw [hf]
  have hc1 : (getLastAttached w).2.hook._callbacks =
      w.hook._callbacks ++ [Callback.resolve w.promises.length] := by rw [hf]
  have hm1 : (getLastAttached w).2.microtasks = w.microtasks := by rw [hf]
  have hr1 : (getLastAttached w).1 = some (w.promises.length + 1) := by rw [hf]
  refine ⟨hr1, hc1, by rw [hp1, hr1], hi1, ?_, ?_⟩
  · intro n
    induction n with
    | zero => rfl
    | succ n ih =>
      rw [List.replicate_succ]
      have : run (getLastAttached w).2 (Op.getLastAttached :: List.replicate n Op.getLastAttached)
          = run (step (getLastAttached w).2 Op.getLastAttached)
              (List.replicate n Op.getLastAttached) := rfl
      rw [this]
      have hs : step (getLastAttached w).2 Op.getLastAttached = (getLastAttached w).2 := by
        simp [step, getLastAttached_waiting _ _ hi1 hp1]
      rw [hs, ih]
  · intro ops ha hm
    obtain ⟨h1, h2, h3⟩ := run_waiting ops (getLastAttached w).2 (w.promises.length + 1)
      hi1 hp1 ha (hm.imp (fun h => by rw [hm1]; exact h) id)
    refine ⟨?_, ?_⟩
    · rw [getLastAttached_waiting _ _ h1 h2, hr1]
    · rw [h3, hc1]

theorem getLastAttached_coalesces_witness :
    getLastAttached
        (run (getLastAttached (World.fresh "e m" (some "m"))).2
          [Op.getLastAttached, Op.onAttached 5, Op.handleInstanceDetached 3, Op.microtask,
           Op.getLastAttached]) =
      (some 1, run (getLastAttached (World.fresh "e m" (some "m"))).2
          [Op.getLastAttached, Op.onAttached 5, Op.handleInstanceDetached 3, Op.microtask,
           Op.getLastAttached]) :=
  ((getLastAttached_coalesces (World.fresh "e m" (some "m")) rfl rfl).2.2.2.2.2
    [Op.getLastAttached, Op.onAttached 5, Op.handleInstanceDetached 3, Op.microtask,
     Op.getLastAttached] (by decide) (Or.inl rfl)).1

/-- C4: after `handleInstanceAttached(x)` the list returned by `getAllAttached`
is the previous list with `x` appended as its last element (plugin callbacks
being opaque, none of them calls back into the hook); this holds however the
calls of the observers end, since the element is pushed before they start. -/
theorem getAllAttached_handleInstanceAttached (w : World) (x : Instance)
    (outcomes : List Completion) :
    getAllAttached (handleInstanceAttached w x outcomes).2 = getAllAttached w ++ [x] ∧
      (getAllAttached (handleInstanceAttached w x outcomes).2).getLast? = some x := by
  have h : getAllAttached (handleInstanceAttached w x outcomes).2 = getAllAttached w ++ [x] := by
    simp [getAllAttached, handleInstanceAttached_hook]
  exact ⟨h, by rw [h]; simp⟩

/-- C5: `handleInstanceDetached(x)` is total. When `x` occurs in the instance
list, its first occurrence is removed and every other element keeps its place
in the order; when `x` does not occur the list is unchanged. In both cases the
observer list, the pending wait, the module name, the promise heap and the
microtask queue are unchanged and no callback is invoked. -/
theorem handleInstanceDetached_spec (w : World) (x : Instance) :
    (x ∈ w.hook._instances →
        ∃ l1 l2, w.hook._instances = l1 ++ x :: l2 ∧ x ∉ l1 ∧
          (handleInstanceDetached w x).hook._instances = l1 ++ l2) ∧
      (x ∉ w.hook._instances →
        (handleInstanceDetached w x).hook._instances = w.hook._instances) ∧
      (handleInstanceDetached w x).hook._instances = w.hook._instances.erase x ∧
      (handleInstanceDetached w x).hook._callbacks = w.hook._callbacks ∧
      (handleInstanceDetached w x).hook._lastAttachedPromise = w.hook._lastAttachedPromise ∧
      (handleInstanceDetached w x).hook._moduleName = w.hook._moduleName ∧
      (handleInstanceDetached w x).calls = w.calls ∧
      (handleInstanceDetached w x).promises = w.promises ∧
      (handleInstanceDetached w x).microtasks = w.microtasks := by
  by_cases hx : x ∈ w.hook._instances
  · obtain ⟨l1, l2, e, hn, hs⟩ := splice_indexOf w.hook._instances x hx
    have hne : indexOf w.hook._instances x ≠ -1 := fun h =>
      (indexOf_eq_neg_one_iff _ _).mp h hx
    have hd : handleInstanceDetached w x =
        { w with hook := { w.hook with _instances := l1 ++ l2 } } := by
      unfold handleInstanceDetached
      simp [hne, hs]
    refine ⟨fun _ => ⟨l1, l2, e, hn, by rw [hd]⟩, fun h => absurd hx h, ?_, ?_, ?_, ?_, ?_, ?_, ?_⟩
    · rw [hd, e]
      simp [List.erase_append_right _ hn]
    all_goals rw [hd]
  · have hd := handleInstanceDetached_of_not_mem w x hx
    refine ⟨fun h => absurd h hx, fun _ => by rw [hd], ?_, ?_, ?_, ?_, ?_, ?_, ?_⟩
    · rw [hd, List.erase_of_not_mem hx]
    all_goals rw [hd]

theorem handleInstanceDetached_spec_witness :
    (∃ l1 l2, [3, 5, 8, 5] = l1 ++ 5 :: l2 ∧ 5 ∉ l1 ∧
      (handleInstanceDetached
        { hook := { _instances := [3, 5, 8, 5], _callbacks := [Callback.user 0],
                    _moduleName := "m", _lastAttachedPromise := none },
          promises := [], microtasks := [], calls := [] } 5).hook._instances = l1 ++ l2) :=
  (handleInstanceDetached_spec
    { hook := { _instances := [3, 5, 8, 5], _callbacks := [Callback.user 0],
                _moduleName := "m", _lastAttachedPromise := none },
      promises := [], microtasks := [], calls := [] } 5).1 (by decide)

theorem getProp_setProp_self (key : String) (value : Nat) (l : List (String × Nat)) :
    getProp key (setProp key value l) = some value := by
  induction l with
  | nil => simp [setProp, getProp]
  | cons kv rest ih =>
    obtain ⟨k, v⟩ := kv
    by_cases h : k = key
    · simp [setProp, getProp, h]
    · simp [setProp, getProp, h, ih]

theorem getProp_setProp_of_ne (key other : String) (value : Nat) (l : List (String × Nat))
    (h : other ≠ key) : getProp key (setProp other value l) = getProp key l := by
  induction l with
  | nil => simp [setProp, getProp, h]
  | cons kv rest ih =>
    obtain ⟨k, v⟩ := kv
    by_cases hk : k = other
    · subst hk
      simp [setProp, getProp, h]
    · by_cases hk2 : k = key
      · subst hk2
        simp [setProp, getProp, hk]
      · simp [setProp, getProp, hk, hk2, ih]

/-- When the hook name is already a property of `_hooks`, `getDomHook` returns
the stored reference and changes nothing. -/
theorem getDomHook_of_present (s : Registry) (e : String) (m : Option String) (r : Nat)
    (h : getProp (_getHookName s.manager e m) s.manager._hooks = some r) :
    getDomHook s e m = (some r, s) := by
  simp [getDomHook, h]

/-- When the hook name is not yet a property, `getDomHook` allocates a hook at
the end of the heap and stores its reference. -/
theorem getDomHook_of_absent (s : Registry) (e : String) (m : Option String)
    (h : getProp (_getHookName s.manager e m) s.manager._hooks = none) :
    getDomHook s e m =
      (some s.heap.length,
        { manager := { s.manager with
            _hooks := setProp (_getHookName s.manager e m) s.heap.length s.manager._hooks }
          heap := s.heap ++ [(GrDomHook.new s.polymer (_getHookName s.manager e m) m).1]
          polymer := (GrDomHook.new s.polymer (_getHookName s.manager e m) m).2 }) := by
  simp [getDomHook, h, getProp_setProp_self]

theorem getDomHook_plugin (s : Registry) (e : String) (m : Option String) :
    (getDomHook s e m).2.manager._plugin = s.manager._plugin := by
  cases h : getProp (_getHookName s.manager e m) s.manager._hooks with
  | none => rw [getDomHook_of_absent s e m h]
  | some r => rw [getDomHook_of_present s e m r h]

theorem _getHookName_congr (a b : GrDomHooksManager) (e : String) (m : Option String)
    (h : a._plugin = b._plugin) : _getHookName a e m = _getHookName b e m := by
  simp [_getHookName, h]

/-- A property of `_hooks` is never overwritten or removed by `getDomHook`. -/
theorem getDomHook_keeps (s : Registry) (e : String) (m : Option String) (key : String)
    (r : Nat) (h : getProp key s.manager._hooks = some r) :
    getProp key (getDomHook s e m).2.manager._hooks = some r := by
  cases hk : getProp (_getHookName s.manager e m) s.manager._hooks with
  | some r2 => rw [getDomHook_of_present s e m r2 hk]; exact h
  | none =>
    rw [getDomHook_of_absent s e m hk]
    have hne : _getHookName s.manager e m ≠ key := by
      intro e2
      rw [e2, h] at hk
      cases hk
    simp only
    rw [getProp_setProp_of_ne key _ _ _ hne]
    exact h

theorem runCalls_plugin (calls : List (String × Option String)) (s : Registry) :
    (runCalls s calls).manager._plugin = s.manager._plugin := by
  induction calls generalizing s with
  | nil => rfl
  | cons c cs ih =>
    have : runCalls s (c :: cs) = runCalls (getDomHook s c.1 c.2).2 cs := rfl
    rw [this, ih, getDomHook_plugin]

theorem runCalls_keeps (calls : List (String × Option String)) (s : Registry) (key : String)
    (r : Nat) (h : getProp key s.manager._hooks = some r) :
    getProp key (runCalls s calls).manager._hooks = some r := by
  induction calls generalizing s with
  | nil => exact h
  | cons c cs ih =>
    have : runCalls s (c :: cs) = runCalls (getDomHook s c.1 c.2).2 cs := rfl
    rw [this]
    exact ih _ (getDomHook_keeps s c.1 c.2 key r h)

theorem getDomHook_returns (s : Registry) (e : String) (m : Option String) :
    ∃ r, (getDomHook s e m).1 = some r ∧
      getProp (_getHookName s.manager e m) (getDomHook s e m).2.manager._hooks = some r := by
  cases h : getProp (_getHookName s.manager e m) s.manager._hooks with
  | none =>
    rw [getDomHook_of_absent s e m h]
    exact ⟨s.heap.length, rfl, getProp_setProp_self _ _ _⟩
  | some r =>
    rw [getDomHook_of_present s e m r h]
    exact ⟨r, rfl, h⟩

/-! ## Claims about the manager -/

/-- C1: for every manager state and every argument pair, `getDomHook` returns a
hook reference, and a second call with the same arguments (directly after the
first, or after any number of other `getDomHook` calls) returns the very same
reference and changes nothing: not the hook map, not the heap of hooks, not
the Polymer registry. -/
theorem getDomHook_idempotent (s : Registry) (e : String) (m : Option String) :
    ∃ r, (getDomHook s e m).1 = some r ∧
      getDomHook (getDomHook s e m).2 e m = (some r, (getDomHook s e m).2) ∧
      ∀ calls : List (String × Option String),
        getDomHook (runCalls (getDomHook s e m).2 calls) e m =
          (some r, runCalls (getDomHook s e m).2 calls) := by
  obtain ⟨r, h1, h2⟩ := getDomHook_returns s e m
  have key : ∀ calls : List (String × Option String),
      getDomHook (runCalls (getDomHook s e m).2 calls) e m =
        (some r, runCalls (getDomHook s e m).2 calls) := by
    intro calls
    apply getDomHook_of_present
    have hp : (runCalls (getDomHook s e m).2 calls).manager._plugin = s.manager._plugin := by
      rw [runCalls_plugin, getDomHook_plugin]
    rw [_getHookName_congr _ s.manager e m hp]
    exact runCalls_keeps calls _ _ r h2
  exact ⟨r, h1, key [], key⟩

/-- C8: for a non-empty module name `m` the hook name is `e ++ " " ++ m`; when
the module name is absent or the empty string it is
`p ++ "-autogenerated-" ++ e`, where `p` is the plugin name; and two managers
with the same plugin name compute the same hook name, whatever their hook
maps. -/
theorem _getHookName_spec (this : GrDomHooksManager) (e : String) :
    (∀ m : String, m ≠ "" → _getHookName this e (some m) = e ++ " " ++ m) ∧
      _getHookName this e none = this._plugin ++ "-autogenerated-" ++ e ∧
      _getHookName this e (some "") = this._plugin ++ "-autogenerated-" ++ e ∧
      (∀ (other : GrDomHooksManager) (m : Option String), other._plugin = this._plugin →
        _getHookName other e m = _getHookName this e m) := by
  refine ⟨?_, rfl, rfl, fun other m h => _getHookName_congr other this e m h⟩
  intro m hm
  simp [_getHookName, truthy?, hm]

theorem _getHookName_spec_witness :
    _getHookName { _plugin := "myplugin", _hooks := [] } "toolbar" (some "my-toolbar-item") =
      "toolbar" ++ " " ++ "my-toolbar-item" :=
  (_getHookName_spec { _plugin := "myplugin", _hooks := [] } "toolbar").1 "my-toolbar-item"
    (by decide)

/-! ### Module names of hooks handed out by the manager -/

theorem append_space_inj (l1 l2 r1 r2 : List Char) (h1 : space ∉ l1) (h2 : space ∉ l2)
    (h : l1 ++ space :: r1 = l2 ++ space :: r2) : l1 = l2 ∧ r1 = r2 := by
  induction l1 generalizing l2 with
  | nil =>
    cases l2 with
    | nil => simpa using h
    | cons c cs =>
      simp only [List.nil_append, List.cons_append, List.cons.injEq] at h
      exact absurd (by rw [← h.1]; simp) h2
  | cons a as ih =>
    cases l2 with
    | nil =>
      simp only [List.nil_append, List.cons_append, List.cons.injEq] at h
      exact absurd (by rw [h.1]; simp) h1
    | cons c cs =>
      simp only [List.cons_append, List.cons.injEq] at h
      have ha : space ∉ as := fun m => h1 (List.mem_cons_of_mem _ m)
      have hc : space ∉ cs := fun m => h2 (List.mem_cons_of_mem _ m)
      obtain ⟨e1, e2⟩ := ih cs ha hc h.2
      exact ⟨by rw [h.1, e1], e2⟩

theorem explicit_name_data (e m : String) :
    (e ++ " " ++ m).data = e.data ++ space :: m.data := by
  simp only [String.data_append]
  show e.data ++ [space] ++ m.data = e.data ++ space :: m.data
  simp

theorem autogenerated_name_no_space (p e : String) (hp : space ∉ p.data) (he : space ∉ e.data) :
    space ∉ (p ++ "-autogenerated-" ++ e).data := by
  simp only [String.data_append, List.mem_append, not_or]
  exact ⟨⟨hp, by decide⟩, he⟩

theorem new_moduleName_polymer (polymer : List String) (hookName : String) (m : Option String) :
    (GrDomHook.new polymer hookName m).1._moduleName =
      (GrDomHook.new [] hookName m).1._moduleName := by
  unfold GrDomHook.new
  cases truthy? m <;> rfl

/-- With space-free plugin and endpoint names, two argument pairs that give the
same hook name give the same module name to a hook constructed under it. -/
theorem new_moduleName_of_hookName_eq (this : GrDomHooksManager) (e1 e2 : String)
    (m1 m2 : Option String) (hp : space ∉ this._plugin.data) (h1 : space ∉ e1.data)
    (h2 : space ∉ e2.data) (h : _getHookName this e1 m1 = _getHookName this e2 m2) :
    (GrDomHook.new [] (_getHookName this e1 m1) m1).1._moduleName =
      (GrDomHook.new [] (_getHookName this e2 m2) m2).1._moduleName := by
  unfold _getHookName GrDomHook.new at *
  cases t1 : truthy? m1 with
  | none =>
    cases t2 : truthy? m2 with
    | none =>
      simp only [t1, t2] at h ⊢
      exact h
    | some b =>
      simp only [t1, t2] at h
      have hd := congrArg String.data h
      rw [explicit_name_data] at hd
      have := autogenerated_name_no_space this._plugin e1 hp h1
      rw [hd] at this
      exact absurd (by simp) this
  | some a =>
    cases t2 : truthy? m2 with
    | none =>
      simp only [t1, t2] at h
      have hd := congrArg String.data h
      rw [explicit_name_data] at hd
      have := autogenerated_name_no_space this._plugin e2 hp h2
      rw [← hd] at this
      exact absurd (by simp) this
    | some b =>
      simp only [t1, t2] at h ⊢
      have hd := congrArg String.data h
      rw [explicit_name_data, explicit_name_data] at hd
      exact String.ext (append_space_inj _ _ _ _ h1 h2 hd).2

theorem hooksNamed_new (p : String) : HooksNamed (Registry.new p) := by
  intro key r h
  simp [Registry.new, getProp] at h

theorem hooksNamed_getDomHook (s : Registry) (e : String) (m : Option String)
    (he : space ∉ e.data) (hs : HooksNamed s) : HooksNamed (getDomHook s e m).2 := by
  cases hk : getProp (_getHookName s.manager e m) s.manager._hooks with
  | some r => rw [getDomHook_of_present s e m r hk]; exact hs
  | none =>
    rw [getDomHook_of_absent s e m hk]
    intro key r hr
    simp only at hr
    by_cases hkey : _getHookName s.manager e m = key
    · rw [hkey, getProp_setProp_self] at hr
      have hr2 : s.heap.length = r := Option.some.inj hr
      refine ⟨(GrDomHook.new s.polymer (_getHookName s.manager e m) m).1, e, m, ?_, he, ?_, ?_⟩
      · rw [← hr2]
        simp
      · exact hkey.symm
      · rw [new_moduleName_polymer, hkey]
    · rw [getProp_setProp_of_ne key _ _ _ hkey] at hr
      obtain ⟨h, e2, m2, h1, h2, h3, h4⟩ := hs key r hr
      refine ⟨h, e2, m2, ?_, h2, h3, h4⟩
      have hlt : r < s.heap.length := by
        by_contra hc
        rw [List.getElem?_eq_none_iff.mpr (by omega)] at h1
        cases h1
      simp only
      rw [List.getElem?_append_left hlt]
      exact h1

theorem hooksNamed_runCalls (calls : List (String × Option String)) (s : Registry)
    (hc : ∀ c ∈ calls, space ∉ c.1.data) (hs : HooksNamed s) :
    HooksNamed (runCalls s calls) := by
  induction calls generalizing s with
  | nil => exact hs
  | cons c cs ih =>
    have : runCalls s (c :: cs) = runCalls (getDomHook s c.1 c.2).2 cs := rfl
    rw [this]
    exact ih _ (fun d hd => hc d (List.mem_cons_of_mem _ hd))
      (hooksNamed_getDomHook s c.1 c.2 (hc c (by simp)) hs)

/-- In a state where `HooksNamed` holds and the plugin name has no space, the
hook returned for a space-free endpoint name has the module name that a hook
constructed for these very arguments would have. -/
theorem moduleNameOf_getDomHook (s : Registry) (e : String) (m : Option String)
    (hp : space ∉ s.manager._plugin.data) (he : space ∉ e.data) (hs : HooksNamed s) :
    moduleNameOf (getDomHook s e m) =
      some (GrDomHook.new [] (_getHookName s.manager e m) m).1._moduleName := by
  obtain ⟨r, h1, h2⟩ := getDomHook_returns s e m
  obtain ⟨h, e2, m2, g1, g2, g3, g4⟩ := hooksNamed_getDomHook s e m he hs _ r h2
  have hpl := getDomHook_plugin s e m
  rw [_getHookName_congr _ s.manager e2 m2 hpl] at g3
  have := new_moduleName_of_hookName_eq s.manager e e2 m m2 hp he g2 g3
  unfold moduleNameOf
  rw [h1]
  simp only
  rw [g1]
  simp only [Option.map_some', getModuleName]
  rw [g4, this, ← g3]

/-- C9 (as stated, refuted): under plugin `p`, after `getDomHook('a b', 'c')`
the call `getDomHook('a', 'b c')` computes the same hook name `a b c` and
returns the stored hook, whose module name is `c`, not `b c`. -/
theorem getModuleName_getDomHook_counterexample :
    moduleNameOf
        (getDomHook (runCalls (Registry.new "p") [("a b", some "c")]) "a" (some "b c")) =
      some "c" ∧
    moduleNameOf
        (getDomHook (runCalls (Registry.new "p") [("a b", some "c")]) "a" (some "b c")) ≠
      some "b c" := by
  decide

/-- C9 (amended): when the plugin name and every endpoint name passed to
`getDomHook`, in the earlier calls and in this one, contain no space, the hook
returned by `getDomHook(e, m)` for a non-empty `m` has module name `m`, and the
hook returned by `getDomHook(e)` without a module name (or with the empty
string) has module name `p ++ "-autogenerated-" ++ e`. -/
theorem getModuleName_getDomHook (p : String) (calls : List (String × Option String))
    (e : String) (hp : space ∉ p.data) (hc : ∀ c ∈ calls, space ∉ c.1.data)
    (he : space ∉ e.data) :
    (∀ m : String, m ≠ "" →
        moduleNameOf (getDomHook (runCalls (Registry.new p) calls) e (some m)) = some m) ∧
      moduleNameOf (getDomHook (runCalls (Registry.new p) calls) e none) =
        some (p ++ "-autogenerated-" ++ e) ∧
      moduleNameOf (getDomHook (runCalls (Registry.new p) calls) e (some "")) =
        some (p ++ "-autogenerated-" ++ e) := by
  have hs := hooksNamed_runCalls calls (Registry.new p) hc (hooksNamed_new p)
  have hpl : (runCalls (Registry.new p) calls).manager._plugin = p := runCalls_plugin calls _
  have hp2 : space ∉ (runCalls (Registry.new p) calls).manager._plugin.data := by
    rw [hpl]; exact hp
  refine ⟨?_, ?_, ?_⟩
  · intro m hm
    rw [moduleNameOf_getDomHook _ e (some m) hp2 he hs]
    simp [GrDomHook.new, truthy?, hm]
  · rw [moduleNameOf_getDomHook _ e none hp2 he hs]
    simp [GrDomHook.new, truthy?, _getHookName, hpl]
  · rw [moduleNameOf_getDomHook _ e (some "") hp2 he hs]
    simp [GrDomHook.new, truthy?, _getHookName, hpl]

theorem getModuleName_getDomHook_witness :
    moduleNameOf
        (getDomHook (runCalls (Registry.new "myplugin") [("toolbar", none), ("header", some "x y")])
          "toolbar" (some "my-toolbar-item")) =
      some "my-toolbar-item" :=
  (getModuleName_getDomHook "myplugin" [("toolbar", none), ("header", some "x y")] "toolbar"
    (by decide) (by decide) (by decide)).1 "my-toolbar-item" (by decide)

/-! ## Access control and the instance list -/

/-- C7: the object built by `getPublicAPI` has exactly the four members
`onAttached`, `getLastAttached`, `getAllAttached` and `getModuleName`, and
neither mutator is among them; but calling its `onAttached` member returns the
hook object itself, on which `handleInstanceAttached` and
`handleInstanceDetached` can be called. -/
theorem getPublicAPI_onAttached_returns_hook (w : World) (cb : Callback) :
    Value.methods getPublicAPI =
        ["onAttached", "getLastAttached", "getAllAttached", "getModuleName"] ∧
      "handleInstanceAttached" ∉ Value.methods getPublicAPI ∧
      "handleInstanceDetached" ∉ Value.methods getPublicAPI ∧
      (callMember getPublicAPI "onAttached" w cb).map Prod.fst = some Value.this ∧
      "handleInstanceAttached" ∈ Value.methods Value.this ∧
      "handleInstanceDetached" ∈ Value.methods Value.this := by
  refine ⟨by decide, by decide, by decide, ?_, by decide, by decide⟩
  have h : callMember getPublicAPI "onAttached" w cb = some (onAttached w cb) := by
    have hl : (exposedMethods.filterMap
        (fun p => (GrDomHook.prototype.lookup p).map (fun m => (p, m)))).lookup "onAttached"
        = some Method.onAttached := by decide
    simp only [callMember, getPublicAPI, hl, callBound]
  rw [h]
  rfl

/-- C10 (as stated, refuted): attaching the same element twice to a fresh hook
leaves it twice in the instance list. -/
theorem instances_nodup_counterexample :
    (run (World.fresh "e m" (some "m"))
        [Op.handleInstanceAttached 1 [], Op.handleInstanceAttached 1 []]).hook._instances = [1, 1] ∧
      ¬ (run (World.fresh "e m" (some "m"))
        [Op.handleInstanceAttached 1 [], Op.handleInstanceAttached 1 []]).hook._instances.Nodup := by
  decide

/-- C10 (amended): in every state reached from a freshly constructed hook by
attachments, detachments, `onAttached` and `getLastAttached` calls and turns of
the microtask queue, in which each `handleInstanceAttached` call is made with
an element that is not in the instance list at that moment, the instance list
never contains the same instance twice. -/
theorem instances_nodup (hookName : String) (opt_moduleName : Option String) (ops : List Op)
    (h : attachesFresh (World.fresh hookName opt_moduleName) ops = true) :
    (run (World.fresh hookName opt_moduleName) ops).hook._instances.Nodup := by
  have hfresh : (World.fresh hookName opt_moduleName).hook._instances.Nodup := by
    unfold World.fresh GrDomHook.new
    cases truthy? opt_moduleName <;> exact List.nodup_nil
  generalize World.fresh hookName opt_moduleName = w at h hfresh
  induction ops generalizing w with
  | nil => exact hfresh
  | cons op ops ih =>
    have hsplit : attachesFresh w [op] = true ∧ attachesFresh (step w op) ops = true := by
      simp only [attachesFresh, Bool.and_eq_true, Bool.and_true] at h ⊢
      exact h
    have : run w (op :: ops) = run (step w op) ops := rfl
    rw [this]
    exact ih (step w op) hsplit.2 (step_nodup w op hfresh hsplit.1)

theorem instances_nodup_witness :
    (run (World.fresh "e m" (some "m"))
      [Op.getLastAttached, Op.handleInstanceAttached 1 [], Op.microtask,
       Op.handleInstanceAttached 2 [], Op.handleInstanceDetached 1,
       Op.handleInstanceAttached 1 []]).hook._instances.Nodup :=
  instances_nodup "e m" (some "m")
    [Op.getLastAttached, Op.handleInstanceAttached 1 [], Op.microtask,
     Op.handleInstanceAttached 2 [], Op.handleInstanceDetached 1,
     Op.handleInstanceAttached 1 []] (by decide)

/-! ## Promise heap and microtask queue under the hook operations -/

theorem lt_length_of_getElem?_eq_some {α : Type} (l : List α) (i : Nat) (a : α)
    (h : l[i]? = some a) : i < l.length := by
  by_contra hc
  have hle : l.length ≤ i := by omega
  rw [List.getElem?_eq_none_iff.mpr hle] at h
  cases h

theorem resolvers_append (a b : List Callback) :
    resolvers (a ++ b) = resolvers a ++ resolvers b := by
  simp [resolvers, List.filterMap_append]

theorem fulfil_pm (w : World) (p : PromiseId) (v : Option Instance) :
    (fulfil w p v).pm = fulfilPM w.pm p v := by
  unfold fulfil fulfilPM World.pm
  split <;> simp_all

theorem invoke_pm_user (id : Nat) (x : Instance) (outcome : Completion) (w : World) :
    (invoke (Callback.user id) x outcome w).2.pm = w.pm := rfl

theorem invoke_pm_resolve (p : PromiseId) (x : Instance) (outcome : Completion) (w : World) :
    (invoke (Callback.resolve p) x outcome w).2.pm = fulfilPM w.pm p (some x) := by
  simp only [invoke, fulfil_pm]
  rfl

theorem invoke_resolve_normal (p : PromiseId) (x : Instance) (outcome : Completion)
    (w : World) : (invoke (Callback.resolve p) x outcome w).1 = Completion.normal := rfl

theorem invoke_user_completion (id : Nat) (x : Instance) (outcome : Completion) (w : World) :
    (invoke (Callback.user id) x outcome w).1 = outcome := rfl

theorem getD_normal_of_no_throw (outcomes : List Completion) (k : Nat)
    (h : Completion.throw ∉ outcomes) : (outcomes[k]?).getD Completion.normal = Completion.normal := by
  cases hk : outcomes[k]? with
  | none => rfl
  | some c =>
    cases c with
    | normal => rfl
    | throw => exact absurd (List.getElem?_mem hk) h

/-- What the `forEach` loop does. The observers in its range split into those
that were called, `called`, and those that were not, `skipped`: the trace grows
by the calls of `called` in order, the promise heap and the microtask queue
change as the resolvers among `called` dictate, and the hook fields stay. When
the loop ends normally nothing is skipped; when it throws, the last observer
called is a plugin callback; and it ends normally when no outcome is a
throw. -/
theorem forEachCallback_spec (x : Instance) (outcomes : List Completion) (n k : Nat)
    (w : World) :
    ∃ called skipped : List Callback,
      (w.hook._callbacks.drop k).take n = called ++ skipped ∧
      (forEachCallback x outcomes n k w).2.calls = w.calls ++ called.map (fun c => (c, x)) ∧
      (forEachCallback x outcomes n k w).2.pm =
        (resolvers called).foldl (fun s p => fulfilPM s p (some x)) w.pm ∧
      ((forEachCallback x outcomes n k w).1 = Completion.normal → skipped = []) ∧
      ((forEachCallback x outcomes n k w).1 = Completion.throw →
        ∃ id, called.getLast? = some (Callback.user id)) ∧
      (Completion.throw ∉ outcomes →
        (forEachCallback x outcomes n k w).1 = Completion.normal) := by
  induction n generalizing k w with
  | zero =>
    refine ⟨[], [], by simp, by simp [forEachCallback], by simp [forEachCallback, resolvers],
      fun _ => rfl, ?_, fun _ => rfl⟩
    intro h
    simp [forEachCallback] at h
  | succ n ih =>
    cases hk : w.hook._callbacks[k]? with
    | none =>
      have hlen : w.hook._callbacks.length ≤ k := List.getElem?_eq_none_iff.mp hk
      have hle : w.hook._callbacks.length ≤ k + 1 := by omega
      rw [forEachCallback_none x outcomes n k w hk]
      obtain ⟨called, skipped, h1, h2, h3, h4, h5, h6⟩ := ih (k + 1) w
      rw [List.drop_eq_nil_of_le hle] at h1
      refine ⟨called, skipped, ?_, h2, h3, h4, h5, h6⟩
      rw [List.drop_eq_nil_of_le hlen]
      simpa using h1
    | some cb =>
      have hlt : k < w.hook._callbacks.length := lt_length_of_getElem?_eq_some _ _ _ hk
      have hd : w.hook._callbacks.drop k = cb :: w.hook._callbacks.drop (k + 1) := by
        rw [List.drop_eq_getElem_cons hlt]
        congr 1
        rw [List.getElem?_eq_getElem hlt] at hk
        exact Option.some.inj hk
      have hpm : (invoke cb x ((outcomes[k]?).getD Completion.normal) w).2.pm =
          (resolvers [cb]).foldl (fun s p => fulfilPM s p (some x)) w.pm := by
        cases cb with
        | user id => simp [resolvers, invoke_pm_user]
        | resolve p => simp [resolvers, invoke_pm_resolve]
      rcases forEachCallback_succ x outcomes n k w cb hk with ⟨hc, h⟩ | ⟨hc, h⟩
      · obtain ⟨called, skipped, h1, h2, h3, h4, h5, h6⟩ :=
          ih (k + 1) (invoke cb x ((outcomes[k]?).getD Completion.normal) w).2
        rw [invoke_hook] at h1
        rw [invoke_calls] at h2
        rw [hpm] at h3
        rw [h]
        refine ⟨cb :: called, skipped, ?_, ?_, ?_, h4, ?_, h6⟩
        · rw [hd, List.take_succ_cons, h1]
          rfl
        · rw [h2]
          simp
        · rw [h3]
          have : resolvers (cb :: called) = resolvers [cb] ++ resolvers called := by
            rw [← resolvers_append]
            rfl
          rw [this, List.foldl_append]
        · intro ht
          obtain ⟨id, hid⟩ := h5 ht
          refine ⟨id, ?_⟩
          cases called with
          | nil => simp at hid
          | cons c cs =>
            rw [List.getLast?_cons_cons]
            exact hid
      · rw [h]
        have hu : ∃ id, cb = Callback.user id := by
          cases cb with
          | user id => exact ⟨id, rfl⟩
          | resolve p =>
            rw [invoke_resolve_normal] at hc
            cases hc
        refine ⟨[cb], (w.hook._callbacks.drop (k + 1)).take n, ?_, ?_, ?_, ?_, ?_, ?_⟩
        · rw [hd, List.take_succ_cons]
          rfl
        · rw [invoke_calls]
          rfl
        · exact hpm
        · intro hn
          cases hn
        · intro _
          obtain ⟨id, hid⟩ := hu
          exact ⟨id, by rw [hid]; rfl⟩
        · intro hno
          obtain ⟨id, hid⟩ := hu
          subst hid
          rw [invoke_user_completion, getD_normal_of_no_throw outcomes k hno] at hc
          cases hc

/-- What `handleInstanceAttached` does besides appending the element: see
`forEachCallback_spec`. -/
theorem handleInstanceAttached_spec (w : World) (x : Instance) (outcomes : List Completion) :
    ∃ called skipped : List Callback,
      w.hook._callbacks = called ++ skipped ∧
      (handleInstanceAttached w x outcomes).2.calls =
        w.calls ++ called.map (fun c => (c, x)) ∧
      (handleInstanceAttached w x outcomes).2.pm =
        (resolvers called).foldl (fun s p => fulfilPM s p (some x)) w.pm ∧
      ((handleInstanceAttached w x outcomes).1 = Completion.normal → skipped = []) ∧
      ((handleInstanceAttached w x outcomes).1 = Completion.throw →
        ∃ id, called.getLast? = some (Callback.user id)) ∧
      (Completion.throw ∉ outcomes →
        (handleInstanceAttached w x outcomes).1 = Completion.normal) := by
  unfold handleInstanceAttached
  obtain ⟨called, skipped, h1, h2, h3, h4, h5, h6⟩ :=
    forEachCallback_spec x outcomes w.hook._callbacks.length 0
      { w with hook := { w.hook with _instances := w.hook._instances ++ [x] } }
  refine ⟨called, skipped, ?_, h2, h3, h4, h5, h6⟩
  simpa using h1

theorem pm_promises (w : World) : w.promises = w.pm.1 := rfl

theorem pm_microtasks (w : World) : w.microtasks = w.pm.2 := rfl

theorem splice_indexOf_eq_erase {α : Type} [DecidableEq α] (xs : List α) (x : α) :
    (if indexOf xs x ≠ -1 then splice xs (indexOf xs x) else xs) = xs.erase x := by
  by_cases hx : x ∈ xs
  · obtain ⟨l1, l2, e, hn, hs⟩ := splice_indexOf xs x hx
    have hne : indexOf xs x ≠ -1 := fun h => (indexOf_eq_neg_one_iff _ _).mp h hx
    rw [if_pos hne, hs]
    rw [e]
    simp [List.erase_append_right _ hn]
  · rw [if_neg (by simpa using (indexOf_eq_neg_one_iff xs x).mpr hx), List.erase_of_not_mem hx]

theorem handleInstanceDetached_eq (w : World) (x : Instance) :
    handleInstanceDetached w x =
      { w with hook := { w.hook with _instances := w.hook._instances.erase x } } := by
  by_cases hx : x ∈ w.hook._instances
  · have hne : indexOf w.hook._instances x ≠ -1 := fun h =>
      (indexOf_eq_neg_one_iff _ _).mp h hx
    have := splice_indexOf_eq_erase w.hook._instances x
    rw [if_pos hne] at this
    unfold handleInstanceDetached
    simp only [hne, ne_eq, not_false_eq_true, if_true, this]
  · rw [handleInstanceDetached_of_not_mem w x hx, List.erase_of_not_mem hx]

theorem getLastAttached_attached_eq (w : World) (h : w.hook._instances ≠ []) :
    getLastAttached w =
      (some w.promises.length,
        { w with promises := w.promises ++ [PromiseState.fulfilled (sliceLast w.hook._instances)] }) := by
  have hlen : w.hook._instances.length ≠ 0 := fun e => h (List.length_eq_zero.mp e)
  simp [getLastAttached, hlen, promiseResolve]

theorem runReaction_hook (w : World) (j : Job) :
    (runReaction w j).hook =
      { w.hook with
        _lastAttachedPromise := none
        _callbacks := w.hook._callbacks.erase (Callback.resolve j.reaction.resolve) } := by
  have h := splice_indexOf_eq_erase w.hook._callbacks (Callback.resolve j.reaction.resolve)
  simp only [runReaction, fulfil_hook]
  by_cases hi : indexOf w.hook._callbacks (Callback.resolve j.reaction.resolve) = -1
  · rw [if_neg (by simpa using hi)] at h
    simp only [hi, ne_eq, not_true_eq_false, if_false, ← h]
  · rw [if_pos hi] at h
    simp only [hi, ne_eq, not_false_eq_true, if_true, h]

theorem runReaction_pm (w : World) (j : Job) :
    (runReaction w j).pm = fulfilPM w.pm j.reaction.derived j.element := by
  simp only [runReaction, fulfil_pm]
  rfl

theorem durable_append (a b : List Callback) :
    durable (a ++ b) = durable a ++ durable b := by
  simp [durable, List.filterMap_append]

theorem resolvers_erase (cbs : List Callback) (p : PromiseId) :
    resolvers (cbs.erase (Callback.resolve p)) = (resolvers cbs).erase p := by
  induction cbs with
  | nil => rfl
  | cons c cs ih =>
    cases c with
    | user id =>
      have hne : (Callback.user id == Callback.resolve p) = false := by simp
      rw [List.erase_cons, hne]
      simpa [resolvers] using ih
    | resolve r =>
      by_cases hr : r = p
      · subst hr
        simp [resolvers]
      · have hne : (Callback.resolve r == Callback.resolve p) = false := by simp [hr]
        have hne2 : (r == p) = false := by simp [hr]
        rw [List.erase_cons, hne]
        have : resolvers (Callback.resolve r :: cs) = r :: resolvers cs := by simp [resolvers]
        rw [this, List.erase_cons, hne2]
        have : resolvers (Callback.resolve r :: cs.erase (Callback.resolve p)) =
            r :: resolvers (cs.erase (Callback.resolve p)) := by simp [resolvers]
        simp only [Bool.false_eq_true, if_false]
        rw [this, ih]

theorem durable_erase_resolve (cbs : List Callback) (p : PromiseId) :
    durable (cbs.erase (Callback.resolve p)) = durable cbs := by
  induction cbs with
  | nil => rfl
  | cons c cs ih =>
    cases c with
    | user id =>
      have hne : (Callback.user id == Callback.resolve p) = false := by simp
      rw [List.erase_cons, hne]
      simpa [durable] using ih
    | resolve r =>
      by_cases hr : r = p
      · subst hr
        simp [durable]
      · have hne : (Callback.resolve r == Callback.resolve p) = false := by simp [hr]
        rw [List.erase_cons, hne]
        simpa [durable] using ih

/-! ## Transitions between the phases -/

theorem getElem?_append_of_some {α : Type} (l l2 : List α) (i : Nat) (a : α)
    (h : l[i]? = some a) : (l ++ l2)[i]? = some a := by
  rw [List.getElem?_append_left (lt_length_of_getElem?_eq_some l i a h)]
  exact h

theorem resolvers_called_of_nil (called skipped : List Callback)
    (h : resolvers (called ++ skipped) = []) : resolvers called = [] := by
  rw [resolvers_append] at h
  exact (List.append_eq_nil.mp h).1

theorem resolvers_called_of_singleton (called skipped : List Callback) (p : PromiseId)
    (h : resolvers (called ++ skipped) = [p]) :
    (resolvers called = [] ∧ skipped ≠ []) ∨ resolvers called = [p] := by
  rw [resolvers_append] at h
  cases hc : resolvers called with
  | nil =>
    left
    refine ⟨rfl, ?_⟩
    intro hs
    rw [hc, hs] at h
    simp [resolvers] at h
  | cons a as =>
    right
    rw [hc] at h
    simp only [List.cons_append, List.cons.injEq, List.append_eq_nil] at h
    rw [h.1, h.2.1]

/-- Without a resolver in the observer list an attachment leaves the promise
heap and the microtask queue alone. -/
theorem handleInstanceAttached_pm_of_nil (w : World) (x : Instance)
    (outcomes : List Completion) (h : resolvers w.hook._callbacks = []) :
    (handleInstanceAttached w x outcomes).2.pm = w.pm := by
  obtain ⟨called, skipped, h1, _, h3, _⟩ := handleInstanceAttached_spec w x outcomes
  rw [h1] at h
  rw [h3, resolvers_called_of_nil called skipped h]
  rfl

/-- With one resolver in the observer list an attachment either calls it, or
throws before reaching it and leaves the promise heap and the microtask queue
alone. -/
theorem handleInstanceAttached_pm_of_singleton (w : World) (x : Instance)
    (outcomes : List Completion) (p : PromiseId) (h : resolvers w.hook._callbacks = [p]) :
    ((handleInstanceAttached w x outcomes).2.pm = w.pm ∧
        (handleInstanceAttached w x outcomes).1 = Completion.throw) ∨
      (handleInstanceAttached w x outcomes).2.pm = fulfilPM w.pm p (some x) := by
  obtain ⟨called, skipped, h1, _, h3, h4, _⟩ := handleInstanceAttached_spec w x outcomes
  rw [h1] at h
  rcases resolvers_called_of_singleton called skipped p h with ⟨hc, hs⟩ | hc
  · left
    refine ⟨by rw [h3, hc]; rfl, ?_⟩
    cases hcomp : (handleInstanceAttached w x outcomes).1 with
    | normal => exact absurd (h4 hcomp) hs
    | throw => rfl
  · right
    rw [h3, hc]
    rfl

theorem idle_step (w : World) (op : Op) (h : Idle w) :
    Idle (step w op) ∨ ∃ p q, Waiting (step w op) p q := by
  obtain ⟨h1, h2, h3⟩ := h
  cases op with
  | handleInstanceAttached x outcomes =>
    left
    have hpm := handleInstanceAttached_pm_of_nil w x outcomes h2
    refine ⟨?_, ?_, ?_⟩
    · simp [step, handleInstanceAttached_hook, h1]
    · simp [step, handleInstanceAttached_hook, h2]
    · simp only [step]
      rw [pm_microtasks, hpm]
      exact h3
  | handleInstanceDetached x =>
    left
    simp only [step, handleInstanceDetached_eq]
    exact ⟨h1, h2, h3⟩
  | onAttached id =>
    left
    refine ⟨h1, ?_, h3⟩
    simp only [step, onAttached, resolvers_append, h2]
    rfl
  | getLastAttached =>
    by_cases hi : w.hook._instances = []
    · right
      refine ⟨w.promises.length, w.promises.length + 1, ?_⟩
      simp only [step, getLastAttached_first w hi h1]
      refine ⟨rfl, ?_, rfl, ?_, ?_, h3⟩
      · simp only [resolvers_append, h2]
        rfl
      · rw [List.getElem?_append_right (by omega)]
        simp
      · rw [List.getElem?_append_right (le_refl _)]
        simp
    · left
      simp only [step, getLastAttached_attached_eq w hi]
      exact ⟨h1, h2, h3⟩
  | microtask =>
    left
    simp only [step, runMicrotask, h3]
    exact ⟨h1, h2, h3⟩

theorem waiting_step (w : World) (p q : PromiseId) (op : Op) (h : Waiting w p q)
    (ha : op.isAttach = false) : Waiting (step w op) p q := by
  obtain ⟨h1, h2, h3, h4, h5, h6⟩ := h
  cases op with
  | handleInstanceAttached x outcomes => simp [Op.isAttach] at ha
  | handleInstanceDetached x =>
    simp only [step, handleInstanceDetached_eq]
    exact ⟨h1, h2, h3, h4, h5, h6⟩
  | onAttached id =>
    refine ⟨h1, ?_, h3, h4, h5, h6⟩
    simp only [step, onAttached, resolvers_append, h2]
    rfl
  | getLastAttached =>
    by_cases hi : w.hook._instances = []
    · simp only [step, getLastAttached_waiting w q hi h1]
      exact ⟨h1, h2, h3, h4, h5, h6⟩
    · simp only [step, getLastAttached_attached_eq w hi]
      exact ⟨h1, h2, h3, getElem?_append_of_some _ _ _ _ h4,
        getElem?_append_of_some _ _ _ _ h5, h6⟩
  | microtask =>
    simp only [step, runMicrotask, h6]
    exact ⟨h1, h2, h3, h4, h5, h6⟩

/-- An attachment during a wait either throws before the resolver is called,
and the wait goes on, or calls the resolver, which queues the resolution
callback with the attached element. -/
theorem waiting_attach (w : World) (p q : PromiseId) (x : Instance)
    (outcomes : List Completion) (h : Waiting w p q) :
    (Waiting (handleInstanceAttached w x outcomes).2 p q ∧
        (handleInstanceAttached w x outcomes).1 = Completion.throw) ∨
      Fired (handleInstanceAttached w x outcomes).2 p q x := by
  obtain ⟨h1, h2, h3, h4, h5, h6⟩ := h
  have hh1 : (handleInstanceAttached w x outcomes).2.hook._lastAttachedPromise = some q := by
    simp [handleInstanceAttached_hook, h1]
  have hh2 : resolvers (handleInstanceAttached w x outcomes).2.hook._callbacks = [p] := by
    simp [handleInstanceAttached_hook, h2]
  rcases handleInstanceAttached_pm_of_singleton w x outcomes p h2 with ⟨hpm, hthrow⟩ | hpm
  · left
    refine ⟨⟨hh1, hh2, h3, ?_, ?_, ?_⟩, hthrow⟩
    · rw [pm_promises, hpm]; exact h4
    · rw [pm_promises, hpm]; exact h5
    · rw [pm_microtasks, hpm]; exact h6
  · right
    have hf : fulfilPM w.pm p (some x) =
        (w.promises.set p (PromiseState.fulfilled (some x)),
          [Job.mk (Reaction.mk p q) (some x)]) := by
      simp [fulfilPM, World.pm, h5, h6]
    rw [hf] at hpm
    have hp : (handleInstanceAttached w x outcomes).2.promises =
        w.promises.set p (PromiseState.fulfilled (some x)) := by
      rw [pm_promises, hpm]
    have hm : (handleInstanceAttached w x outcomes).2.microtasks =
        [Job.mk (Reaction.mk p q) (some x)] := by
      rw [pm_microtasks, hpm]
    have hlt : p < w.promises.length := lt_length_of_getElem?_eq_some _ _ _ h5
    have hne : p ≠ q := by
      rw [h3]
      exact (Nat.succ_ne_self p).symm
    refine ⟨hh1, hh2, h3, ?_, ?_, hm⟩
    · rw [hp, List.getElem?_set_ne hne]
      exact h4
    · rw [hp, List.getElem?_set_self hlt]

theorem fired_step (w : World) (p q : PromiseId) (x : Instance) (op : Op)
    (h : Fired w p q x) (hm : op.isMicrotask = false) : Fired (step w op) p q x := by
  obtain ⟨h1, h2, h3, h4, h5, h6⟩ := h
  cases op with
  | handleInstanceAttached y outcomes =>
    have hf : fulfilPM w.pm p (some y) = w.pm := by
      simp [fulfilPM, World.pm, h5]
    have hpm : (handleInstanceAttached w y outcomes).2.pm = w.pm := by
      rcases handleInstanceAttached_pm_of_singleton w y outcomes p h2 with ⟨g, _⟩ | g
      · exact g
      · rw [g, hf]
    simp only [step]
    refine ⟨?_, ?_, h3, ?_, ?_, ?_⟩
    · simp [handleInstanceAttached_hook, h1]
    · simp [handleInstanceAttached_hook, h2]
    · rw [pm_promises, hpm]; exact h4
    · rw [pm_promises, hpm]; exact h5
    · rw [pm_microtasks, hpm]; exact h6
  | handleInstanceDetached y =>
    simp only [step, handleInstanceDetached_eq]
    exact ⟨h1, h2, h3, h4, h5, h6⟩
  | onAttached id =>
    refine ⟨h1, ?_, h3, h4, h5, h6⟩
    simp only [step, onAttached, resolvers_append, h2]
    rfl
  | getLastAttached =>
    by_cases hi : w.hook._instances = []
    · simp only [step, getLastAttached_waiting w q hi h1]
      exact ⟨h1, h2, h3, h4, h5, h6⟩
    · simp only [step, getLastAttached_attached_eq w hi]
      exact ⟨h1, h2, h3, getElem?_append_of_some _ _ _ _ h4,
        getElem?_append_of_some _ _ _ _ h5, h6⟩
  | microtask => simp [Op.isMicrotask] at hm

/-- Running the queued resolution callback clears the pending wait, removes the
resolver from the observer list and fulfils the stored promise with `x`. -/
theorem fired_microtask (w : World) (p q : PromiseId) (x : Instance) (h : Fired w p q x) :
    Idle (runMicrotask w) ∧
      (runMicrotask w).promises[q]? = some (PromiseState.fulfilled (some x)) ∧
      (runMicrotask w).hook._callbacks = w.hook._callbacks.erase (Callback.resolve p) ∧
      (runMicrotask w).hook._instances = w.hook._instances := by
  obtain ⟨h1, h2, h3, h4, h5, h6⟩ := h
  have hr : runMicrotask w =
      runReaction { w with microtasks := [] } (Job.mk (Reaction.mk p q) (some x)) := by
    simp [runMicrotask, h6]
  have hh := runReaction_hook { w with microtasks := [] } (Job.mk (Reaction.mk p q) (some x))
  have hpm := runReaction_pm { w with microtasks := [] } (Job.mk (Reaction.mk p q) (some x))
  have hf : fulfilPM (World.pm { w with microtasks := [] }) q (some x) =
      (w.promises.set q (PromiseState.fulfilled (some x)), []) := by
    simp [fulfilPM, World.pm, h4]
  simp only at hh hpm
  rw [hf] at hpm
  have hlt : q < w.promises.length := lt_length_of_getElem?_eq_some _ _ _ h4
  rw [hr]
  refine ⟨⟨?_, ?_, ?_⟩, ?_, ?_, ?_⟩
  · rw [hh]
  · rw [hh]
    simp only [resolvers_erase, h2]
    simp
  · rw [pm_microtasks, hpm]
  · rw [pm_promises, hpm]
    simp only
    rw [List.getElem?_set_self hlt]
  · rw [hh]
  · rw [hh]

theorem coherent_step (w : World) (op : Op) (h : Coherent w) : Coherent (step w op) := by
  rcases h with h | ⟨p, q, h⟩ | ⟨p, q, x, h⟩
  · rcases idle_step w op h with h2 | h2
    · exact Or.inl h2
    · exact Or.inr (Or.inl h2)
  · cases ha : op.isAttach with
    | false => exact Or.inr (Or.inl ⟨p, q, waiting_step w p q op h ha⟩)
    | true =>
      cases op with
      | handleInstanceAttached x outcomes =>
        rcases waiting_attach w p q x outcomes h with ⟨g, _⟩ | g
        · exact Or.inr (Or.inl ⟨p, q, g⟩)
        · exact Or.inr (Or.inr ⟨p, q, x, g⟩)
      | handleInstanceDetached x => simp [Op.isAttach] at ha
      | onAttached id => simp [Op.isAttach] at ha
      | getLastAttached => simp [Op.isAttach] at ha
      | microtask => simp [Op.isAttach] at ha
  · cases hm : op.isMicrotask with
    | false => exact Or.inr (Or.inr ⟨p, q, x, fired_step w p q x op h hm⟩)
    | true =>
      cases op with
      | microtask => exact Or.inl (fired_microtask w p q x h).1
      | handleInstanceAttached x outcomes => simp [Op.isMicrotask] at hm
      | handleInstanceDetached x => simp [Op.isMicrotask] at hm
      | onAttached id => simp [Op.isMicrotask] at hm
      | getLastAttached => simp [Op.isMicrotask] at hm

theorem coherent_run (ops : List Op) (w : World) (h : Coherent w) : Coherent (run w ops) := by
  induction ops generalizing w with
  | nil => exact h
  | cons op ops ih => exact ih (step w op) (coherent_step w op h)

theorem coherent_fresh (hookName : String) (opt_moduleName : Option String) :
    Coherent (World.fresh hookName opt_moduleName) := by
  left
  unfold World.fresh GrDomHook.new
  cases truthy? opt_moduleName <;> exact ⟨rfl, rfl, rfl⟩

theorem run_append (w : World) (ops1 ops2 : List Op) :
    run w (ops1 ++ ops2) = run (run w ops1) ops2 := by
  simp [run, List.foldl_append]

theorem fired_run (ops : List Op) (w : World) (p q : PromiseId) (x : Instance)
    (h : Fired w p q x) (hm : ∀ op ∈ ops, op.isMicrotask = false) :
    Fired (run w ops) p q x := by
  induction ops generalizing w with
  | nil => exact h
  | cons op ops ih =>
    exact ih (step w op) (fired_step w p q x op h (hm op (by simp)))
      (fun o ho => hm o (List.mem_cons_of_mem _ ho))

/-- A wait whose callback is still not queued after a sequence of events without
a turn of the microtask queue has gone on through all of them. -/
theorem waiting_run (ops : List Op) (w : World) (p q : PromiseId) (h : Waiting w p q)
    (hm : ∀ op ∈ ops, op.isMicrotask = false) (he : (run w ops).microtasks = []) :
    Waiting (run w ops) p q := by
  induction ops generalizing w with
  | nil => exact h
  | cons op ops ih =>
    have hrest : ∀ o ∈ ops, o.isMicrotask = false := fun o ho => hm o (List.mem_cons_of_mem _ ho)
    have hrun : run w (op :: ops) = run (step w op) ops := rfl
    rw [hrun] at he ⊢
    cases ha : op.isAttach with
    | false => exact ih (step w op) (waiting_step w p q op h ha) hrest he
    | true =>
      cases op with
      | handleInstanceAttached x outcomes =>
        rcases waiting_attach w p q x outcomes h with ⟨g, _⟩ | g
        · exact ih _ g hrest he
        · have hf := fired_run ops _ p q x g hrest
          have := hf.2.2.2.2.2
          simp only [step] at he
          rw [he] at this
          cases this
      | handleInstanceDetached x => simp [Op.isAttach] at ha
      | onAttached id => simp [Op.isAttach] at ha
      | getLastAttached => simp [Op.isAttach] at ha
      | microtask => simp [Op.isAttach] at ha

/-- A coherent world with a stored promise and an empty microtask queue is in
the waiting phase. -/
theorem waiting_of_coherent (w : World) (q : PromiseId) (h : Coherent w)
    (hp : w.hook._lastAttachedPromise = some q) (hm : w.microtasks = []) :
    ∃ p, Waiting w p q := by
  rcases h with h | ⟨p, q2, h⟩ | ⟨p, q2, x, h⟩
  · rw [h.1] at hp
    cases hp
  · have : q2 = q := by
      have := h.1
      rw [hp] at this
      exact (Option.some.inj this).symm
    subst this
    exact ⟨p, h⟩
  · have := h.2.2.2.2.2
    rw [hm] at this
    cases this

/-- A coherent world with a queued promise callback is in the fired phase, and
the queue holds nothing but that callback. -/
theorem fired_of_coherent (w : World) (j : Job) (rest : List Job) (h : Coherent w)
    (hm : w.microtasks = j :: rest) :
    ∃ x, Fired w j.reaction.resolve j.reaction.derived x ∧ rest = [] ∧ j.element = some x := by
  rcases h with h | ⟨p, q, h⟩ | ⟨p, q, x, h⟩
  · have := h.2.2
    rw [hm] at this
    cases this
  · have := h.2.2.2.2.2
    rw [hm] at this
    cases this
  · have hq := h.2.2.2.2.2
    rw [hm] at hq
    simp only [List.cons.injEq] at hq
    obtain ⟨hj, hr⟩ := hq
    subst hj
    exact ⟨x, h, hr, rfl⟩

/-- When every attachment returns normally, nothing is attached while a wait is
in flight and its callback is not queued. -/
theorem waitsEmpty_step (w : World) (op : Op) (hc : Coherent w) (he : WaitsEmpty w)
    (hn : attachesComplete w [op] = true) : WaitsEmpty (step w op) := by
  intro hp hm
  cases op with
  | handleInstanceAttached x outcomes =>
    have hnorm : (handleInstanceAttached w x outcomes).1 = Completion.normal := by
      simpa [attachesComplete] using hn
    simp only [step] at hp hm
    rcases hc with h | ⟨p, q, h⟩ | ⟨p, q, y, h⟩
    · exact absurd (by simp [handleInstanceAttached_hook, h.1]) hp
    · rcases waiting_attach w p q x outcomes h with ⟨_, g⟩ | g
      · rw [hnorm] at g
        cases g
      · have := g.2.2.2.2.2
        rw [hm] at this
        cases this
    · have hf := fired_step w p q y (Op.handleInstanceAttached x outcomes) h rfl
      have := hf.2.2.2.2.2
      simp only [step] at this
      rw [hm] at this
      cases this
  | handleInstanceDetached x =>
    simp only [step, handleInstanceDetached_eq] at hp hm ⊢
    rw [he hp hm]
    rfl
  | onAttached id => exact he hp hm
  | getLastAttached =>
    by_cases hi : w.hook._instances = []
    · simp only [step, getLastAttached_hook_instances]
      exact hi
    · simp only [step, getLastAttached_attached_eq w hi] at hp hm
      exact absurd (he hp hm) hi
  | microtask =>
    rcases hc with h | ⟨p, q, h⟩ | ⟨p, q, y, h⟩
    · have e : runMicrotask w = w := by simp [runMicrotask, h.2.2]
      simp only [step, e] at hp hm ⊢
      exact he hp hm
    · have e : runMicrotask w = w := by simp [runMicrotask, h.2.2.2.2.2]
      simp only [step, e] at hp hm ⊢
      exact he hp hm
    · exact absurd (fired_microtask w p q y h).1.1 hp

theorem waitsEmpty_run (ops : List Op) (w : World) (hc : Coherent w) (he : WaitsEmpty w)
    (hn : attachesComplete w ops = true) : WaitsEmpty (run w ops) := by
  induction ops generalizing w with
  | nil => exact he
  | cons op ops ih =>
    have hsplit : attachesComplete w [op] = true ∧ attachesComplete (step w op) ops = true := by
      simp only [attachesComplete, Bool.and_eq_true, Bool.and_true] at hn ⊢
      exact hn
    exact ih (step w op) (coherent_step w op hc) (waitsEmpty_step w op hc he hsplit.1) hsplit.2

theorem filter_ne_erase (l : List Instance) (x : Instance) :
    (l.erase x).filter (fun y => decide (y ≠ x)) = l.filter (fun y => decide (y ≠ x)) := by
  induction l with
  | nil => rfl
  | cons a as ih =>
    by_cases ha : a = x
    · subst ha
      simp
    · have hne : (a == x) = false := by simp [ha]
      rw [List.erase_cons, hne]
      simp only [Bool.false_eq_true, if_false, List.filter_cons, ih]

theorem injectAppContext_appContext (s : AppState) (c : Context) (o : Completion) :
    ((injectAppContext s c o).1 = Completion.normal →
        (injectAppContext s c o).2.appContext = some c) ∧
      ((injectAppContext s c o).1 = Completion.throw →
        (injectAppContext s c o).2.appContext = s.appContext ∧ s.appContext ≠ none ∧
          o = Completion.throw) ∧
      (o = Completion.normal → (injectAppContext s c o).1 = Completion.normal) ∧
      (s.appContext = none → (injectAppContext s c o).1 = Completion.normal) ∧
      (injectAppContext s c o).2.appContext ≠ none := by
  unfold injectAppContext
  cases h : s.appContext <;> cases o <;> simp [h]

theorem injectAppContext_finalizeCalls (s : AppState) (c : Context) (o : Completion) :
    (injectAppContext s c o).2.finalizeCalls =
      s.finalizeCalls ++ s.appContext.toList.map (fun a => (a, some a)) := by
  unfold injectAppContext
  cases h : s.appContext <;> cases o <;> simp [h]

theorem injectAll_cons (s : AppState) (c : Context × Completion)
    (cs : List (Context × Completion)) :
    injectAll s (c :: cs) = injectAll (injectAppContext s c.1 c.2).2 cs := rfl

theorem injectAll_appContext_ne_none (calls : List (Context × Completion)) (s : AppState)
    (h : s.appContext ≠ none) : (injectAll s calls).appContext ≠ none := by
  induction calls generalizing s with
  | nil => exact h
  | cons c cs ih =>
    rw [injectAll_cons]
    exact ih _ (injectAppContext_appContext s c.1 c.2).2.2.2.2

theorem injected_cons_normal (s : AppState) (c : Context × Completion)
    (cs : List (Context × Completion))
    (h : (injectAppContext s c.1 c.2).1 = Completion.normal) :
    injected s (c :: cs) = c.1 :: injected (injectAppContext s c.1 c.2).2 cs := by
  simp [injected, h]

theorem injected_cons_throw (s : AppState) (c : Context × Completion)
    (cs : List (Context × Completion))
    (h : (injectAppContext s c.1 c.2).1 = Completion.throw) :
    injected s (c :: cs) = injected (injectAppContext s c.1 c.2).2 cs := by
  simp [injected, h]

/-- The current context is the argument of the most recent call that returned
normally, or the one from before the calls when there is no such call. -/
theorem injectAll_appContext (calls : List (Context × Completion)) (s : AppState) :
    (injectAll s calls).appContext =
      match (injected s calls).getLast? with
      | some c => some c
      | none => s.appContext := by
  induction calls generalizing s with
  | nil => rfl
  | cons c cs ih =>
    rw [injectAll_cons, ih]
    obtain ⟨h1, h2, _⟩ := injectAppContext_appContext s c.1 c.2
    cases hc : (injectAppContext s c.1 c.2).1 with
    | normal =>
      rw [injected_cons_normal s c cs hc]
      cases hl : injected (injectAppContext s c.1 c.2).2 cs with
      | nil => simp [h1 hc]
      | cons d ds =>
        rw [List.getLast?_cons_cons, List.getLast?_eq_getLast _ (List.cons_ne_nil d ds)]
    | throw =>
      rw [injected_cons_throw s c cs hc, (h2 hc).1]

theorem injected_of_normal (calls : List (Context × Completion)) (s : AppState)
    (h : ∀ c ∈ calls, c.2 = Completion.normal) : injected s calls = calls.map Prod.fst := by
  induction calls generalizing s with
  | nil => rfl
  | cons c cs ih =>
    rw [injected_cons_normal s c cs
        ((injectAppContext_appContext s c.1 c.2).2.2.1 (h c (by simp))),
      ih _ (fun d hd => h d (List.mem_cons_of_mem _ hd))]
    rfl

theorem injected_initial_ne_nil (calls : List (Context × Completion)) (h : calls ≠ []) :
    injected AppState.initial calls ≠ [] := by
  cases calls with
  | nil => exact absurd rfl h
  | cons c cs =>
    rw [injected_cons_normal AppState.initial c cs
      ((injectAppContext_appContext AppState.initial c.1 c.2).2.2.2.1 rfl)]
    exact List.cons_ne_nil _ _

theorem injectAll_finalizeCalls (calls : List (Context × Completion)) (s : AppState)
    (h : ∀ c ∈ calls, c.2 = Completion.normal) :
    (injectAll s calls).finalizeCalls =
      s.finalizeCalls ++
        ((s.appContext.toList ++ calls.map Prod.fst).dropLast).map (fun a => (a, some a)) := by
  induction calls generalizing s with
  | nil =>
    cases hs : s.appContext <;> simp [injectAll, hs]
  | cons c cs ih =>
    rw [injectAll_cons, ih _ (fun d hd => h d (List.mem_cons_of_mem _ hd)),
      injectAppContext_finalizeCalls]
    have hn := (injectAppContext_appContext s c.1 c.2).2.2.1 (h c (by simp))
    have hc : (injectAppContext s c.1 c.2).2.appContext = some c.1 :=
      (injectAppContext_appContext s c.1 c.2).1 hn
    rw [hc, List.map_cons, List.dropLast_append_of_ne_nil _ (List.cons_ne_nil c.1 _)]
    simp

/-! ## Further claims about a single hook -/

/-- C13: `onAttached(cb)` is total, returns the hook itself, appends `cb` at the
end of the observer list and invokes nothing; the instance list, the pending
wait, the module name, the promise heap and the microtask queue are
unchanged. -/
theorem onAttached_spec (w : World) (cb : Callback) :
    (onAttached w cb).1 = Value.this ∧
      (onAttached w cb).2.hook._callbacks = w.hook._callbacks ++ [cb] ∧
      (onAttached w cb).2.calls = w.calls ∧
      (onAttached w cb).2.hook._instances = w.hook._instances ∧
      (onAttached w cb).2.hook._lastAttachedPromise = w.hook._lastAttachedPromise ∧
      (onAttached w cb).2.hook._moduleName = w.hook._moduleName ∧
      (onAttached w cb).2.promises = w.promises ∧
      (onAttached w cb).2.microtasks = w.microtasks :=
  ⟨rfl, rfl, rfl, rfl, rfl, rfl, rfl, rfl⟩

/-- C16: in a state reached from a fresh hook in which the resolution callback
of a wait is queued, running it sets the pending-wait field to absent and
removes from the observer list exactly the resolver of that wait, which was
the only resolver there; the plugin callbacks stay in their order. In any
later state with an empty instance list and no pending wait, `getLastAttached`
allocates promises that did not exist before, appends a new resolver and
stores the new promise. -/
theorem runMicrotask_clears_wait (hookName : String) (opt_moduleName : Option String)
    (ops : List Op) (w : World) (j : Job) (rest : List Job)
    (hw : w = run (World.fresh hookName opt_moduleName) ops) (hq : w.microtasks = j :: rest) :
    w.hook._lastAttachedPromise = some j.reaction.derived ∧
      (runMicrotask w).hook._lastAttachedPromise = none ∧
      resolvers w.hook._callbacks = [j.reaction.resolve] ∧
      (runMicrotask w).hook._callbacks =
        w.hook._callbacks.erase (Callback.resolve j.reaction.resolve) ∧
      resolvers (runMicrotask w).hook._callbacks = [] ∧
      durable (runMicrotask w).hook._callbacks = durable w.hook._callbacks ∧
      (∀ ops2 : List Op,
        (run (runMicrotask w) ops2).hook._instances = [] →
        (run (runMicrotask w) ops2).hook._lastAttachedPromise = none →
          (getLastAttached (run (runMicrotask w) ops2)).1 =
              some ((run (runMicrotask w) ops2).promises.length + 1) ∧
            (getLastAttached (run (runMicrotask w) ops2)).2.hook._callbacks =
              (run (runMicrotask w) ops2).hook._callbacks ++
                [Callback.resolve (run (runMicrotask w) ops2).promises.length] ∧
            (getLastAttached (run (runMicrotask w) ops2)).2.hook._lastAttachedPromise =
              some ((run (runMicrotask w) ops2).promises.length + 1)) := by
  have hc : Coherent w := by
    rw [hw]
    exact coherent_run ops _ (coherent_fresh hookName opt_moduleName)
  obtain ⟨x, hf, _, _⟩ := fired_of_coherent w j rest hc hq
  obtain ⟨hidle, _, hcb, _⟩ := fired_microtask w _ _ x hf
  refine ⟨hf.1, hidle.1, hf.2.1, hcb, hidle.2.1, ?_, ?_⟩
  · rw [hcb, durable_erase_resolve]
  · intro ops2 hi hp
    rw [getLastAttached_first _ hi hp]
    exact ⟨rfl, rfl, rfl⟩

theorem runMicrotask_clears_wait_witness :
    (runMicrotask
        (run (World.fresh "e m" (some "m"))
          [Op.onAttached 1, Op.getLastAttached, Op.onAttached 2,
           Op.handleInstanceAttached 7 []])).hook._callbacks =
      (run (World.fresh "e m" (some "m"))
          [Op.onAttached 1, Op.getLastAttached, Op.onAttached 2,
           Op.handleInstanceAttached 7 []]).hook._callbacks.erase (Callback.resolve 0) :=
  (runMicrotask_clears_wait "e m" (some "m")
    [Op.onAttached 1, Op.getLastAttached, Op.onAttached 2, Op.handleInstanceAttached 7 []]
    _ (Job.mk (Reaction.mk 0 1) (some 7)) [] rfl (by decide)).2.2.2.1

/-- C18: in every state reached from a fresh hook by any interleaving of
attachments, detachments, `onAttached` and `getLastAttached` calls and turns of
the microtask queue, the observer list holds at most one resolver, and it
holds one exactly when the pending-wait field is set. -/
theorem at_most_one_resolver (hookName : String) (opt_moduleName : Option String)
    (ops : List Op) :
    (resolvers (run (World.fresh hookName opt_moduleName) ops).hook._callbacks).length ≤ 1 ∧
      ((resolvers (run (World.fresh hookName opt_moduleName) ops).hook._callbacks).length = 1 ↔
        (run (World.fresh hookName opt_moduleName) ops).hook._lastAttachedPromise ≠ none) := by
  have hc := coherent_run ops _ (coherent_fresh hookName opt_moduleName)
  rcases hc with h | ⟨p, q, h⟩ | ⟨p, q, x, h⟩
  · rw [h.2.1, h.1]
    simp
  · rw [h.2.1, h.1]
    simp
  · rw [h.2.1, h.1]
    simp

/-! ## Distinct hooks for distinct argument pairs -/

/-- With space-free plugin and endpoint names the hook name determines the
endpoint name and the module name, an absent module name and the empty string
counting as the same. -/
theorem _getHookName_inj (this : GrDomHooksManager) (e1 e2 : String) (m1 m2 : Option String)
    (hp : space ∉ this._plugin.data) (h1 : space ∉ e1.data) (h2 : space ∉ e2.data)
    (h : _getHookName this e1 m1 = _getHookName this e2 m2) :
    e1 = e2 ∧ truthy? m1 = truthy? m2 := by
  unfold _getHookName at h
  cases t1 : truthy? m1 with
  | none =>
    cases t2 : truthy? m2 with
    | none =>
      simp only [t1, t2] at h
      have hd := congrArg String.data h
      simp only [String.data_append] at hd
      exact ⟨String.ext (List.append_cancel_left hd), rfl⟩
    | some b =>
      simp only [t1, t2] at h
      have hd := congrArg String.data h
      rw [explicit_name_data] at hd
      have := autogenerated_name_no_space this._plugin e1 hp h1
      rw [hd] at this
      exact absurd (by simp) this
  | some a =>
    cases t2 : truthy? m2 with
    | none =>
      simp only [t1, t2] at h
      have hd := congrArg String.data h
      rw [explicit_name_data] at hd
      have := autogenerated_name_no_space this._plugin e2 hp h2
      rw [← hd] at this
      exact absurd (by simp) this
    | some b =>
      simp only [t1, t2] at h
      have hd := congrArg String.data h
      rw [explicit_name_data, explicit_name_data] at hd
      obtain ⟨g1, g2⟩ := append_space_inj _ _ _ _ h1 h2 hd
      exact ⟨String.ext g1, by rw [String.ext g2]⟩

theorem refsDistinct_new (p : String) : RefsDistinct (Registry.new p) := by
  constructor
  · intro key r h
    simp [Registry.new, getProp] at h
  · intro k1 k2 r h
    simp [Registry.new, getProp] at h

theorem refsDistinct_getDomHook (s : Registry) (e : String) (m : Option String)
    (hs : RefsDistinct s) : RefsDistinct (getDomHook s e m).2 := by
  cases hk : getProp (_getHookName s.manager e m) s.manager._hooks with
  | some r => rw [getDomHook_of_present s e m r hk]; exact hs
  | none =>
    rw [getDomHook_of_absent s e m hk]
    have key : ∀ k r,
        getProp k (setProp (_getHookName s.manager e m) s.heap.length s.manager._hooks) = some r →
          (k = _getHookName s.manager e m ∧ r = s.heap.length) ∨
            (k ≠ _getHookName s.manager e m ∧ getProp k s.manager._hooks = some r) := by
      intro k r hr
      by_cases hkey : _getHookName s.manager e m = k
      · left
        rw [← hkey, getProp_setProp_self] at hr
        exact ⟨hkey.symm, (Option.some.inj hr).symm⟩
      · right
        rw [getProp_setProp_of_ne k _ _ _ hkey] at hr
        exact ⟨fun e2 => hkey e2.symm, hr⟩
    constructor
    · intro k r hr
      simp only at hr
      simp only [List.length_append, List.length_singleton]
      rcases key k r hr with ⟨_, h2⟩ | ⟨_, h2⟩
      · omega
      · have := hs.1 k r h2
        omega
    · intro k1 k2 r hr1 hr2
      simp only at hr1 hr2
      rcases key k1 r hr1 with ⟨a1, a2⟩ | ⟨a1, a2⟩
      · rcases key k2 r hr2 with ⟨b1, _⟩ | ⟨_, b2⟩
        · rw [a1, b1]
        · have := hs.1 k2 r b2
          omega
      · rcases key k2 r hr2 with ⟨_, b2⟩ | ⟨_, b2⟩
        · have := hs.1 k1 r a2
          omega
        · exact hs.2 k1 k2 r a2 b2

theorem refsDistinct_runCalls (calls : List (String × Option String)) (s : Registry)
    (hs : RefsDistinct s) : RefsDistinct (runCalls s calls) := by
  induction calls generalizing s with
  | nil => exact hs
  | cons c cs ih => exact ih _ (refsDistinct_getDomHook s c.1 c.2 hs)

theorem keysOf_getDomHook (s : Registry) (e : String) (m : Option String)
    (calls : List (String × Option String)) (hs : KeysOf s calls) :
    KeysOf (getDomHook s e m).2 (calls ++ [(e, m)]) := by
  intro key r hr
  have hpl := getDomHook_plugin s e m
  cases hk : getProp (_getHookName s.manager e m) s.manager._hooks with
  | some r2 =>
    rw [getDomHook_of_present s e m r2 hk] at hr ⊢
    obtain ⟨c, hc, hkey⟩ := hs key r hr
    exact ⟨c, List.mem_append_left _ hc, hkey⟩
  | none =>
    rw [getDomHook_of_absent s e m hk] at hr
    simp only at hr
    by_cases hkey : _getHookName s.manager e m = key
    · refine ⟨(e, m), by simp, ?_⟩
      rw [_getHookName_congr _ s.manager e m hpl]
      exact hkey.symm
    · rw [getProp_setProp_of_ne key _ _ _ hkey] at hr
      obtain ⟨c, hc, hkey2⟩ := hs key r hr
      refine ⟨c, List.mem_append_left _ hc, ?_⟩
      rw [_getHookName_congr _ s.manager c.1 c.2 hpl]
      exact hkey2

theorem keysOf_runCalls (calls : List (String × Option String)) (s : Registry)
    (before : List (String × Option String)) (hs : KeysOf s before) :
    KeysOf (runCalls s calls) (before ++ calls) := by
  induction calls generalizing s before with
  | nil => simpa [runCalls] using hs
  | cons c cs ih =>
    have h := ih (getDomHook s c.1 c.2).2 (before ++ [c]) (keysOf_getDomHook s c.1 c.2 before hs)
    rw [List.append_assoc] at h
    exact h

theorem keysOf_new (p : String) : KeysOf (Registry.new p) [] := by
  intro key r h
  simp [Registry.new, getProp] at h

/-- C12 (as stated, refuted): the different argument pairs `('a b', 'c')` and
`('a', 'b c')` give the same hook name, and the second `getDomHook` call
returns the hook object created by the first. -/
theorem getDomHook_distinct_counterexample :
    (("a b", some "c") : String × Option String) ≠ ("a", some "b c") ∧
      _getHookName (Registry.new "p").manager "a b" (some "c") =
        _getHookName (Registry.new "p").manager "a" (some "b c") ∧
      (getDomHook (getDomHook (Registry.new "p") "a b" (some "c")).2 "a" (some "b c")).1 =
        (getDomHook (Registry.new "p") "a b" (some "c")).1 := by
  decide

/-- C12 (amended): in a registry reached by `getDomHook` calls, when the plugin
name and the two endpoint names contain no space and the two argument pairs
differ in the endpoint name or in the module name (an absent module name and
the empty string counting as the same), the two hook names differ and the two
`getDomHook` calls, with any other `getDomHook` calls between them, return
different hook objects. When moreover the endpoint names of the earlier calls
contain no space and none of the earlier calls had this argument pair,
`getDomHook` allocates a new hook. -/
theorem getDomHook_distinct (p : String) (calls between : List (String × Option String))
    (s : Registry) (e1 e2 : String) (m1 m2 : Option String)
    (hs : s = runCalls (Registry.new p) calls)
    (hp : space ∉ p.data) (h1 : space ∉ e1.data) (h2 : space ∉ e2.data)
    (hne : e1 ≠ e2 ∨ truthy? m1 ≠ truthy? m2) :
    _getHookName s.manager e1 m1 ≠ _getHookName s.manager e2 m2 ∧
      (∃ r1 r2, (getDomHook s e1 m1).1 = some r1 ∧
        (getDomHook (runCalls (getDomHook s e1 m1).2 between) e2 m2).1 = some r2 ∧ r1 ≠ r2) ∧
      ((∀ c ∈ calls, space ∉ c.1.data) →
        (∀ c ∈ calls, c.1 ≠ e1 ∨ truthy? c.2 ≠ truthy? m1) →
          (getDomHook s e1 m1).1 = some s.heap.length ∧
            (getDomHook s e1 m1).2.heap.length = s.heap.length + 1) := by
  have hpl : s.manager._plugin = p := by rw [hs]; exact runCalls_plugin calls _
  have hp2 : space ∉ s.manager._plugin.data := by rw [hpl]; exact hp
  have hnames : _getHookName s.manager e1 m1 ≠ _getHookName s.manager e2 m2 := by
    intro h
    obtain ⟨g1, g2⟩ := _getHookName_inj s.manager e1 e2 m1 m2 hp2 h1 h2 h
    rcases hne with hne | hne
    · exact hne g1
    · exact hne g2
  refine ⟨hnames, ?_, ?_⟩
  · obtain ⟨r1, a1, a2⟩ := getDomHook_returns s e1 m1
    obtain ⟨r2, b1, b2⟩ := getDomHook_returns (runCalls (getDomHook s e1 m1).2 between) e2 m2
    refine ⟨r1, r2, a1, b1, ?_⟩
    intro hr
    have hpl2 : (runCalls (getDomHook s e1 m1).2 between).manager._plugin =
        s.manager._plugin := by
      rw [runCalls_plugin, getDomHook_plugin]
    rw [_getHookName_congr _ s.manager e2 m2 hpl2] at b2
    have a3 := getDomHook_keeps _ e2 m2 _ r1 (runCalls_keeps between _ _ r1 a2)
    have hd : RefsDistinct (getDomHook (runCalls (getDomHook s e1 m1).2 between) e2 m2).2 := by
      apply refsDistinct_getDomHook
      apply refsDistinct_runCalls
      apply refsDistinct_getDomHook
      rw [hs]
      exact refsDistinct_runCalls calls _ (refsDistinct_new p)
    rw [← hr] at b2
    exact hnames (hd.2 _ _ r1 a3 b2)
  · intro hc hnew
    have hk : KeysOf s calls := by
      rw [hs]
      simpa using keysOf_runCalls calls (Registry.new p) [] (keysOf_new p)
    have habs : getProp (_getHookName s.manager e1 m1) s.manager._hooks = none := by
      cases hg : getProp (_getHookName s.manager e1 m1) s.manager._hooks with
      | none => rfl
      | some r =>
        obtain ⟨c, hmem, hkey⟩ := hk _ r hg
        obtain ⟨g1, g2⟩ :=
          _getHookName_inj s.manager c.1 e1 c.2 m1 hp2 (hc c hmem) h1 hkey.symm
        rcases hnew c hmem with h | h
        · exact absurd g1 h
        · exact absurd g2 h
    rw [getDomHook_of_absent s e1 m1 habs]
    simp

theorem getDomHook_distinct_witness :
    _getHookName (runCalls (Registry.new "myplugin") [("toolbar", none)]).manager "toolbar"
        (some "item") ≠
      _getHookName (runCalls (Registry.new "myplugin") [("toolbar", none)]).manager "header"
        (some "item") :=
  (getDomHook_distinct "myplugin" [("toolbar", none)] [] _ "toolbar" "header" (some "item")
    (some "item") rfl (by decide) (by decide) (by decide) (Or.inl (by decide))).1

/-! ## Observers that throw -/

theorem mem_resolvers (cbs : List Callback) (p : PromiseId) :
    p ∈ resolvers cbs ↔ Callback.resolve p ∈ cbs := by
  induction cbs with
  | nil => simp [resolvers]
  | cons c cs ih =>
    cases c with
    | user id =>
      have : resolvers (Callback.user id :: cs) = resolvers cs := by simp [resolvers]
      rw [this, ih]
      simp
    | resolve r =>
      have : resolvers (Callback.resolve r :: cs) = r :: resolvers cs := by simp [resolvers]
      rw [this, List.mem_cons, ih]
      simp

/-- When no observer throws, `handleInstanceAttached` returns normally and has
called every observer, in list order. -/
theorem handleInstanceAttached_of_no_throw (w : World) (x : Instance)
    (outcomes : List Completion) (h : Completion.throw ∉ outcomes) :
    (handleInstanceAttached w x outcomes).1 = Completion.normal ∧
      (handleInstanceAttached w x outcomes).2.calls =
        w.calls ++ w.hook._callbacks.map (fun c => (c, x)) := by
  obtain ⟨called, skipped, h1, h2, _, h4, _, h6⟩ := handleInstanceAttached_spec w x outcomes
  have hs := h4 (h6 h)
  rw [hs, List.append_nil] at h1
  exact ⟨h6 h, by rw [h2, h1]⟩

/-- During a wait, the observers that an attachment calls include the resolver
exactly when the resolution callback is queued afterwards, and they do when the
attachment returns normally. -/
theorem waiting_attach_called (w : World) (p q : PromiseId) (x : Instance)
    (outcomes : List Completion) (h : Waiting w p q) :
    ∃ called skipped : List Callback,
      w.hook._callbacks = called ++ skipped ∧
      (handleInstanceAttached w x outcomes).2.calls =
        w.calls ++ called.map (fun c => (c, x)) ∧
      ((handleInstanceAttached w x outcomes).2.microtasks ≠ [] ↔
        Callback.resolve p ∈ called) ∧
      ((handleInstanceAttached w x outcomes).1 = Completion.normal →
        (handleInstanceAttached w x outcomes).2.microtasks ≠ []) := by
  obtain ⟨_, h2, _, _, h5, h6⟩ := h
  obtain ⟨called, skipped, g1, g2, g3, g4, _⟩ := handleInstanceAttached_spec w x outcomes
  refine ⟨called, skipped, g1, g2, ?_⟩
  rw [g1] at h2
  rcases resolvers_called_of_singleton called skipped p h2 with ⟨hc, hs⟩ | hc
  · have hm : (handleInstanceAttached w x outcomes).2.microtasks = [] := by
      rw [pm_microtasks, g3, hc]
      exact h6
    have hnot : Callback.resolve p ∉ called := by
      rw [← mem_resolvers, hc]
      simp
    refine ⟨⟨fun hne => absurd hm hne, fun hmem => absurd hmem hnot⟩, ?_⟩
    intro hn
    exact absurd (g4 hn) hs
  · have hf : fulfilPM w.pm p (some x) =
        (w.promises.set p (PromiseState.fulfilled (some x)),
          [Job.mk (Reaction.mk p q) (some x)]) := by
      simp [fulfilPM, World.pm, h5, h6]
    have hm : (handleInstanceAttached w x outcomes).2.microtasks ≠ [] := by
      rw [pm_microtasks, g3, hc]
      simp only [List.foldl_cons, List.foldl_nil, hf]
      exact List.cons_ne_nil _ _
    have hmem : Callback.resolve p ∈ called := by
      rw [← mem_resolvers, hc]
      simp
    exact ⟨⟨fun _ => hmem, fun _ => hm⟩, fun _ => hm⟩

/-- C6 (as stated, refuted): with the plugin callbacks 1 and 2 registered in
that order, an attachment of 7 during which callback 1 throws invokes
callback 1 only; callback 2 is not invoked. -/
theorem handleInstanceAttached_invokes_counterexample :
    (run (World.fresh "e m" (some "m")) [Op.onAttached 1, Op.onAttached 2]).hook._callbacks =
        [Callback.user 1, Callback.user 2] ∧
      (handleInstanceAttached
          (run (World.fresh "e m" (some "m")) [Op.onAttached 1, Op.onAttached 2]) 7
          [Completion.throw]).2.calls = [(Callback.user 1, 7)] ∧
      (handleInstanceAttached
          (run (World.fresh "e m" (some "m")) [Op.onAttached 1, Op.onAttached 2]) 7
          [Completion.throw]).1 = Completion.throw := by
  decide

/-- C6 (amended): `handleInstanceAttached(x)` calls the observers with `x` in
list order, each position at most once, and stops after the first call that
throws: the observers called are an initial part of the observer list, they
are the whole list when the method returns normally, and when it throws the
last one called is a plugin callback. When no observer throws, the method
returns normally and every observer is called exactly once, in list order,
resolvers included. Consequently, when no observer throws and the plugin
callback `id` is not yet registered, `onAttached(id)` followed by attachments
of `a` and of `b` adds exactly two invocations of that callback to the trace:
with `a`, then with `b`. -/
theorem handleInstanceAttached_invokes (w : World) (x : Instance)
    (outcomes : List Completion) :
    (∃ called skipped : List Callback,
        w.hook._callbacks = called ++ skipped ∧
        (handleInstanceAttached w x outcomes).2.calls =
          w.calls ++ called.map (fun c => (c, x)) ∧
        ((handleInstanceAttached w x outcomes).1 = Completion.normal → skipped = []) ∧
        ((handleInstanceAttached w x outcomes).1 = Completion.throw →
          ∃ id, called.getLast? = some (Callback.user id))) ∧
      (Completion.throw ∉ outcomes →
        (handleInstanceAttached w x outcomes).1 = Completion.normal ∧
          (handleInstanceAttached w x outcomes).2.calls =
            w.calls ++ w.hook._callbacks.map (fun c => (c, x))) ∧
      (∀ (id : Nat) (a b : Instance) (oa ob : List Completion),
        Callback.user id ∉ w.hook._callbacks →
        Completion.throw ∉ oa → Completion.throw ∉ ob →
        (run w [Op.onAttached id, Op.handleInstanceAttached a oa,
            Op.handleInstanceAttached b ob]).calls.filter
              (fun c => decide (c.1 = Callback.user id)) =
          w.calls.filter (fun c => decide (c.1 = Callback.user id)) ++
            [(Callback.user id, a), (Callback.user id, b)]) := by
  refine ⟨?_, handleInstanceAttached_of_no_throw w x outcomes, ?_⟩
  · obtain ⟨called, skipped, h1, h2, _, h4, h5, _⟩ := handleInstanceAttached_spec w x outcomes
    exact ⟨called, skipped, h1, h2, h4, h5⟩
  · intro id a b oa ob hid ha hb
    have hf := filter_map_pair_of_not_mem (Callback.user id) a w.hook._callbacks hid
    have hg := filter_map_pair_of_not_mem (Callback.user id) b w.hook._callbacks hid
    have e1 := (handleInstanceAttached_of_no_throw (onAttached w (Callback.user id)).2 a oa ha).2
    have e2 := (handleInstanceAttached_of_no_throw
      (handleInstanceAttached (onAttached w (Callback.user id)).2 a oa).2 b ob hb).2
    have hrun : run w [Op.onAttached id, Op.handleInstanceAttached a oa,
        Op.handleInstanceAttached b ob] =
        (handleInstanceAttached
          (handleInstanceAttached (onAttached w (Callback.user id)).2 a oa).2 b ob).2 := rfl
    rw [hrun, e2, e1, handleInstanceAttached_hook]
    simp only [onAttached, List.map_append, List.filter_append, hf, hg, List.map_cons,
      List.map_nil]
    simp

theorem handleInstanceAttached_invokes_witness :
    (run (World.fresh "e m" (some "m"))
        [Op.onAttached 2, Op.handleInstanceAttached 10 [],
         Op.handleInstanceAttached 11 [Completion.normal]]).calls.filter
          (fun c => decide (c.1 = Callback.user 2)) =
      [(Callback.user 2, 10), (Callback.user 2, 11)] :=
  (handleInstanceAttached_invokes (World.fresh "e m" (some "m")) 0 []).2.2 2 10 11 []
    [Completion.normal] (by decide) (by decide) (by decide)

/-- C11 (as stated, refuted): on a hook where element 5 is already attached,
attaching 5 again and then detaching it removes the older occurrence only, so 5
still occurs in `getAllAttached()`. -/
theorem detach_after_attach_counterexample :
    5 ∈ getAllAttached
      (handleInstanceDetached
        (handleInstanceAttached
          (run (World.fresh "e m" (some "m")) [Op.handleInstanceAttached 5 []]) 5 []).2 5) := by
  decide

/-- C11 (amended): after `handleInstanceAttached(x)` followed by
`handleInstanceDetached(x)` the instances other than `x` are listed by
`getAllAttached()` in the same order as before the two calls, for every hook
state and every `x`; and `x` is absent from the list exactly when it was not
in the list before the two calls, in which case the list is the previous
one. -/
theorem detach_after_attach (w : World) (x : Instance) (outcomes : List Completion) :
    (getAllAttached
          (handleInstanceDetached (handleInstanceAttached w x outcomes).2 x)).filter
          (fun y => decide (y ≠ x)) =
        (getAllAttached w).filter (fun y => decide (y ≠ x)) ∧
      (x ∉ getAllAttached w →
        x ∉ getAllAttached (handleInstanceDetached (handleInstanceAttached w x outcomes).2 x) ∧
          getAllAttached (handleInstanceDetached (handleInstanceAttached w x outcomes).2 x) =
            getAllAttached w) ∧
      (x ∈ getAllAttached w →
        x ∈ getAllAttached
          (handleInstanceDetached (handleInstanceAttached w x outcomes).2 x)) := by
  have hi : getAllAttached (handleInstanceDetached (handleInstanceAttached w x outcomes).2 x) =
      (getAllAttached w ++ [x]).erase x := by
    simp only [getAllAttached, handleInstanceDetached_eq, handleInstanceAttached_hook]
  refine ⟨?_, ?_, ?_⟩
  · rw [hi, filter_ne_erase]
    simp
  · intro h
    have he : (getAllAttached w ++ [x]).erase x = getAllAttached w := by
      rw [List.erase_append_right _ h]
      simp
    rw [hi, he]
    exact ⟨h, rfl⟩
  · intro h
    rw [hi, List.erase_append_left _ h]
    simp

theorem detach_after_attach_witness :
    getAllAttached
        (handleInstanceDetached
          (handleInstanceAttached
            (run (World.fresh "e m" (some "m")) [Op.handleInstanceAttached 5 []]) 6
            [Completion.throw]).2 6) =
      getAllAttached (run (World.fresh "e m" (some "m")) [Op.handleInstanceAttached 5 []]) :=
  ((detach_after_attach (run (World.fresh "e m" (some "m")) [Op.handleInstanceAttached 5 []]) 6
    [Completion.throw]).2.1 (by decide)).2

/-- C17 (as stated, refuted): right after the attachment that satisfies a wait,
the instance list is non-empty and the pending-wait field is still set. -/
theorem pending_after_attach_counterexample :
    (run (World.fresh "e m" (some "m"))
        [Op.getLastAttached, Op.handleInstanceAttached 1 []]).hook._instances = [1] ∧
      (run (World.fresh "e m" (some "m"))
        [Op.getLastAttached, Op.handleInstanceAttached 1 []]).hook._lastAttachedPromise =
          some 1 := by
  decide

/-- C17 (amended): in every state reached from a fresh hook by events among
which every `handleInstanceAttached` call returned normally, and in which no
promise callback is queued, the pending-wait field is absent whenever the
instance list is non-empty. An attachment that returns normally while a wait
is in flight leaves the field set and queues the resolution callback; the
field is cleared when that callback runs. -/
theorem pending_absent_when_attached (hookName : String) (opt_moduleName : Option String)
    (ops : List Op) (w : World) (hw : w = run (World.fresh hookName opt_moduleName) ops)
    (hn : attachesComplete (World.fresh hookName opt_moduleName) ops = true)
    (hm : w.microtasks = []) :
    (w.hook._instances ≠ [] → w.hook._lastAttachedPromise = none) ∧
      (∀ (q : PromiseId) (x : Instance) (outcomes : List Completion),
        w.hook._lastAttachedPromise = some q →
        (handleInstanceAttached w x outcomes).1 = Completion.normal →
        (handleInstanceAttached w x outcomes).2.hook._lastAttachedPromise = some q ∧
          (handleInstanceAttached w x outcomes).2.microtasks ≠ [] ∧
          (runMicrotask (handleInstanceAttached w x outcomes).2).hook._lastAttachedPromise =
            none) := by
  have hc : Coherent w := by
    rw [hw]
    exact coherent_run ops _ (coherent_fresh hookName opt_moduleName)
  have he : WaitsEmpty w := by
    rw [hw]
    refine waitsEmpty_run ops _ (coherent_fresh hookName opt_moduleName) ?_ hn
    intro hp _
    unfold World.fresh GrDomHook.new
    cases truthy? opt_moduleName <;> rfl
  refine ⟨?_, ?_⟩
  · intro hi
    by_contra hp
    exact hi (he hp hm)
  · intro q x outcomes hp hnorm
    obtain ⟨p, hwait⟩ := waiting_of_coherent w q hc hp hm
    rcases waiting_attach w p q x outcomes hwait with ⟨_, g⟩ | hf
    · rw [hnorm] at g
      cases g
    · refine ⟨hf.1, ?_, (fired_microtask _ p q x hf).1.1⟩
      rw [hf.2.2.2.2.2]
      exact List.cons_ne_nil _ _

theorem pending_absent_when_attached_witness :
    (run (World.fresh "e m" (some "m"))
      [Op.onAttached 4, Op.getLastAttached, Op.handleInstanceAttached 1 [],
       Op.microtask]).hook._lastAttachedPromise = none :=
  (pending_absent_when_attached "e m" (some "m")
    [Op.onAttached 4, Op.getLastAttached, Op.handleInstanceAttached 1 [], Op.microtask] _ rfl
    (by decide) (by decide)).1 (by decide)

/-- C19 (as stated, refuted): with a plugin callback registered before the wait
was created, the first attachment after it, of 7, throws in that callback
before the resolver is called; the wait is satisfied by the next attachment
and the stored promise is fulfilled with 8, not with 7. -/
theorem wait_resolves_counterexample :
    (run (World.fresh "e m" (some "m"))
        [Op.onAttached 1, Op.getLastAttached]).hook._lastAttachedPromise = some 1 ∧
      (runMicrotask
        (run (World.fresh "e m" (some "m"))
          [Op.onAttached 1, Op.getLastAttached,
           Op.handleInstanceAttached 7 [Completion.throw],
           Op.handleInstanceAttached 8 []])).promises[1]? =
        some (PromiseState.fulfilled (some 8)) := by
  decide

/-- C19 (amended): take a state reached from a fresh hook with a wait in flight
whose resolution callback is not queued, and let further events follow, none
of them a turn of the microtask queue, after which the callback is still not
queued. The wait is then still in flight, and a `handleInstanceAttached(x)`
call queues the callback exactly when it calls the resolver of the wait, which
it does whenever it returns normally. If it does, the stored promise is still
pending after any further attachments, detachments, `onAttached` and
`getLastAttached` calls, and it is fulfilled with `x` when the callback then
runs; if it does not, the wait stays in flight with the promise pending. -/
theorem wait_resolves_with_first_attached (hookName : String)
    (opt_moduleName : Option String) (ops : List Op) (w : World) (q : PromiseId)
    (x : Instance) (outcomes : List Completion) (ops1 ops2 : List Op)
    (hw : w = run (World.fresh hookName opt_moduleName) ops)
    (hp : w.hook._lastAttachedPromise = some q) (hm : w.microtasks = [])
    (h1 : ∀ op ∈ ops1, op.isMicrotask = false) (he : (run w ops1).microtasks = [])
    (h2 : ∀ op ∈ ops2, op.isMicrotask = false) :
    (w.hook._instances = [] → (getLastAttached w).1 = some q) ∧
      (run w ops1).hook._lastAttachedPromise = some q ∧
      (∃ (p : PromiseId) (called skipped : List Callback),
        resolvers (run w ops1).hook._callbacks = [p] ∧
        (run w ops1).hook._callbacks = called ++ skipped ∧
        (handleInstanceAttached (run w ops1) x outcomes).2.calls =
          (run w ops1).calls ++ called.map (fun c => (c, x)) ∧
        ((handleInstanceAttached (run w ops1) x outcomes).2.microtasks ≠ [] ↔
          Callback.resolve p ∈ called)) ∧
      ((handleInstanceAttached (run w ops1) x outcomes).1 = Completion.normal →
        (handleInstanceAttached (run w ops1) x outcomes).2.microtasks ≠ []) ∧
      ((handleInstanceAttached (run w ops1) x outcomes).2.microtasks ≠ [] →
        (run (handleInstanceAttached (run w ops1) x outcomes).2 ops2).promises[q]? =
            some (PromiseState.pending []) ∧
          (run (handleInstanceAttached (run w ops1) x outcomes).2
            ops2).hook._lastAttachedPromise = some q ∧
          (runMicrotask (run (handleInstanceAttached (run w ops1) x outcomes).2
            ops2)).promises[q]? = some (PromiseState.fulfilled (some x))) ∧
      ((handleInstanceAttached (run w ops1) x outcomes).2.microtasks = [] →
        (handleInstanceAttached (run w ops1) x outcomes).2.hook._lastAttachedPromise =
            some q ∧
          (handleInstanceAttached (run w ops1) x outcomes).2.promises[q]? =
            some (PromiseState.pending [])) := by
  have hc : Coherent w := by
    rw [hw]
    exact coherent_run ops _ (coherent_fresh hookName opt_moduleName)
  obtain ⟨p, hwait⟩ := waiting_of_coherent w q hc hp hm
  have hw1 := waiting_run ops1 w p q hwait h1 he
  obtain ⟨called, skipped, c1, c2, c3, c4⟩ := waiting_attach_called _ p q x outcomes hw1
  refine ⟨?_, hw1.1, ⟨p, called, skipped, hw1.2.1, c1, c2, c3⟩, c4, ?_, ?_⟩
  · intro hi
    rw [getLastAttached_waiting w q hi hp]
  · intro hne
    rcases waiting_attach _ p q x outcomes hw1 with ⟨g, _⟩ | g
    · exact absurd g.2.2.2.2.2 hne
    · have hf := fired_run ops2 _ p q x g h2
      exact ⟨hf.2.2.2.1, hf.1, (fired_microtask _ p q x hf).2.1⟩
  · intro heq
    rcases waiting_attach _ p q x outcomes hw1 with ⟨g, _⟩ | g
    · exact ⟨g.1, g.2.2.2.1⟩
    · have := g.2.2.2.2.2
      rw [heq] at this
      cases this

theorem wait_resolves_with_first_attached_witness :
    (runMicrotask
        (run (handleInstanceAttached
            (run (run (World.fresh "e m" (some "m")) [Op.onAttached 3, Op.getLastAttached])
              [Op.handleInstanceAttached 6 [Completion.throw]]) 7 []).2
          [Op.handleInstanceAttached 8 [], Op.handleInstanceDetached 7,
           Op.getLastAttached])).promises[1]? =
      some (PromiseState.fulfilled (some 7)) :=
  ((wait_resolves_with_first_attached "e m" (some "m") [Op.onAttached 3, Op.getLastAttached]
    _ 1 7 [] [Op.handleInstanceAttached 6 [Completion.throw]]
    [Op.handleInstanceAttached 8 [], Op.handleInstanceDetached 7, Op.getLastAttached]
    rfl (by decide) (by decide) (by decide) (by decide) (by decide)).2.2.2.2.1
      (by decide)).2.2

/-! ## Claims about the application context -/

/-- C14 (as stated, refuted): when `finalize` of context 1 throws during
`injectAppContext(2)`, the assignment is not reached and `getAppContext`
returns 1, not the context of the most recent call. -/
theorem getAppContext_counterexample :
    (getAppContext
        (injectAll AppState.initial [(1, Completion.normal), (2, Completion.throw)])).1 =
      Except.ok 1 ∧
    (getAppContext
        (injectAll AppState.initial [(1, Completion.normal), (2, Completion.throw)])).1 ≠
      Except.ok 2 := by
  refine ⟨rfl, ?_⟩
  intro h
  have h2 : (Except.ok 1 : Except String Context) = Except.ok 2 := h
  exact absurd (Except.ok.inj h2) (by decide)

/-- C14 (amended): after any sequence of `injectAppContext` calls,
`getAppContext` throws the error `App context has not been injected` exactly
when the sequence is empty; otherwise it returns the context passed to the
most recent call that returned normally, and there is such a call; when no
`finalize` throws this is the context of the most recent call; and
`getAppContext` leaves the state as it was. -/
theorem getAppContext_spec (calls : List (Context × Completion)) :
    ((getAppContext (injectAll AppState.initial calls)).1 =
          Except.error "App context has not been injected" ↔ calls = []) ∧
      (calls ≠ [] → injected AppState.initial calls ≠ []) ∧
      (∀ c, (injected AppState.initial calls).getLast? = some c →
        (getAppContext (injectAll AppState.initial calls)).1 = Except.ok c) ∧
      ((∀ d ∈ calls, d.2 = Completion.normal) →
        ∀ c, (calls.map Prod.fst).getLast? = some c →
          (getAppContext (injectAll AppState.initial calls)).1 = Except.ok c) ∧
      (getAppContext (injectAll AppState.initial calls)).2 =
        injectAll AppState.initial calls := by
  have ha := injectAll_appContext calls AppState.initial
  have key : ∀ c, (injected AppState.initial calls).getLast? = some c →
      (getAppContext (injectAll AppState.initial calls)).1 = Except.ok c := by
    intro c hl
    rw [hl] at ha
    simp only at ha
    simp [getAppContext, ha]
  refine ⟨?_, injected_initial_ne_nil calls, key, ?_, ?_⟩
  · constructor
    · intro h
      by_contra hne
      have hi := injected_initial_ne_nil calls hne
      cases hl : (injected AppState.initial calls).getLast? with
      | none => exact hi (List.getLast?_eq_none_iff.mp hl)
      | some c =>
        rw [key c hl] at h
        cases h
    · intro h
      subst h
      rfl
  · intro hall c hl
    apply key
    rw [injected_of_normal calls _ hall]
    exact hl
  · unfold getAppContext
    cases (injectAll AppState.initial calls).appContext <;> rfl

theorem getAppContext_spec_witness :
    (getAppContext
      (injectAll AppState.initial
        [(4, Completion.normal), (9, Completion.normal), (5, Completion.throw)])).1 =
      Except.ok 9 :=
  (getAppContext_spec
    [(4, Completion.normal), (9, Completion.normal), (5, Completion.throw)]).2.2.1 9
    (by decide)

/-- C15 (as stated, refuted): when `finalize` of context 1 throws during the
second call, context 2 never becomes current, and the third call finalizes
context 1 again, not the previously injected context 2. -/
theorem injectAppContext_finalize_counterexample :
    (injectAll AppState.initial
        [(1, Completion.normal), (2, Completion.throw), (3, Completion.normal)]).finalizeCalls =
      [(1, some 1), (1, some 1)] := by
  decide

/-- C15 (amended): a call of `injectAppContext` on the initial state makes no
`finalize` call and returns normally. A call made after at least one other
call makes exactly one `finalize` call, on the context that is current at that
moment, which is the argument of the most recent earlier call that returned
normally, and it makes that call while this context is still current. The new
context becomes current exactly when the call returns normally, which it does
when `finalize` returns normally; when `finalize` throws, the current context
stays. When no `finalize` throws in a sequence with the contexts
`c1, ..., cn`, the `finalize` calls made are exactly those on
`c1, ..., c(n-1)`, in that order. -/
theorem injectAppContext_finalizes_previous (calls : List (Context × Completion))
    (c : Context) (o : Completion) :
    ((injectAppContext AppState.initial c o).2.finalizeCalls = [] ∧
        (injectAppContext AppState.initial c o).1 = Completion.normal) ∧
      (calls ≠ [] →
        ∃ cur, (injected AppState.initial calls).getLast? = some cur ∧
          (injectAll AppState.initial calls).appContext = some cur ∧
          (injectAppContext (injectAll AppState.initial calls) c o).2.finalizeCalls =
            (injectAll AppState.initial calls).finalizeCalls ++ [(cur, some cur)]) ∧
      ((injectAppContext (injectAll AppState.initial calls) c o).1 = Completion.normal →
        (injectAppContext (injectAll AppState.initial calls) c o).2.appContext = some c) ∧
      ((injectAppContext (injectAll AppState.initial calls) c o).1 = Completion.throw →
        (injectAppContext (injectAll AppState.initial calls) c o).2.appContext =
            (injectAll AppState.initial calls).appContext ∧
          o = Completion.throw) ∧
      (o = Completion.normal →
        (injectAppContext (injectAll AppState.initial calls) c o).1 = Completion.normal) ∧
      ((∀ d ∈ calls, d.2 = Completion.normal) →
        (injectAll AppState.initial calls).finalizeCalls =
          (calls.map Prod.fst).dropLast.map (fun a => (a, some a))) := by
  obtain ⟨a1, a2, a3, _, _⟩ :=
    injectAppContext_appContext (injectAll AppState.initial calls) c o
  refine ⟨⟨?_, ?_⟩, ?_, a1, fun h => ⟨(a2 h).1, (a2 h).2.2⟩, a3, ?_⟩
  · cases o <;> rfl
  · cases o <;> rfl
  · intro hne
    have hi := injected_initial_ne_nil calls hne
    cases hl : (injected AppState.initial calls).getLast? with
    | none => exact absurd (List.getLast?_eq_none_iff.mp hl) hi
    | some cur =>
      have ha := injectAll_appContext calls AppState.initial
      rw [hl] at ha
      simp only at ha
      refine ⟨cur, rfl, ha, ?_⟩
      rw [injectAppContext_finalizeCalls, ha]
      rfl
  · intro hall
    rw [injectAll_finalizeCalls calls _ hall]
    simp [AppState.initial]

theorem injectAppContext_finalizes_previous_witness :
    (injectAppContext
        (injectAll AppState.initial [(4, Completion.normal), (9, Completion.normal)]) 2
        Completion.throw).2.appContext =
      (injectAll AppState.initial [(4, Completion.normal), (9, Completion.normal)]).appContext :=
  ((injectAppContext_finalizes_previous [(4, Completion.normal), (9, Completion.normal)] 2
    Completion.throw).2.2.2.1 (by decide)).1

end GrDomHooks
